import Mathlib

/-!
Shallow embedding of the sbommerge reconciliation engine
(`sbommerge/cli.py`, function `main`, lines 121-359).

Records are Python dictionaries: insertion-ordered mappings from string
keys to string values with unique keys.  They are embedded as association
lists; `dictInsert` is dictionary assignment (update in place, else append),
`List.lookup` is dictionary access, and `recordEq` is Python dictionary
equality (order-insensitive).  The lib4sbom helper objects (`SBOMFile`,
`SBOMPackage`, `SBOMRelationship`) are external collaborators whose record
building the spec fixes as plain mapping updates (spec section 3):
`set_value` is assignment, `copy_file`/`copy_package` assign every
key-value pair of the source record, `get_name`/`get_value` are lookups.
Iterating a record iterates its key-value pairs, which agrees with the
Python iteration over keys because dictionary keys are unique.
-/

namespace SbomMerge

/-- A record: insertion-ordered string-to-string mapping (a Python dict). -/
abbrev Record := List (String × String)

/-- Dictionary assignment `m[k] = v`: replace the binding in place if the
key is present, otherwise append the new binding (Python dict semantics). -/
def dictInsert {α β : Type} [BEq α] : List (α × β) → α → β → List (α × β)
  | [], k, v => [(k, v)]
  | p :: rest, k, v => if p.1 == k then (k, v) :: rest else p :: dictInsert rest k v

/-- `set_value` on a lib4sbom record object: dictionary assignment. -/
def setValue (r : Record) (k v : String) : Record := dictInsert r k v

/-- `param in record`: key membership test. -/
def hasKey (r : Record) (k : String) : Bool := (r.lookup k).isSome

/-- Python dictionary equality: same keys with the same values,
independent of insertion order. -/
def recordEq (a b : Record) : Bool :=
  a.all (fun p => b.lookup p.1 == some p.2) && b.all (fun p => a.lookup p.1 == some p.2)

/-- `record in listOfRecords`: Python `in` on a list of dicts. -/
def dictMem (r : Record) (rs : List Record) : Bool := rs.any (recordEq r)

/-- `record["name"]`.  Parsed records always carry a `name` key
(spec section 3), so the `""` default is never reached on well-formed input. -/
def getName (r : Record) : String := (r.lookup "name").getD ""

/-- `copy_file` / `copy_package`: assign every key-value pair of the source
record into a freshly initialised record object. -/
def copyRecord (r : Record) : Record := r.foldl (fun sb p => setValue sb p.1 p.2) []

/-- The four difference counters (cli.py lines 121-125) together with the
number of `[ERROR] Version mismatch` reports issued (line 212). -/
structure Counters where
  identical : Nat := 0
  updated : Nat := 0
  additional : Nat := 0
  merged : Nat := 0
  errors : Nat := 0
deriving Repr, DecidableEq

/-- One step of the per-parameter reconciliation loop (cli.py lines 136-154
and identically 221-239): `p` is the pair `(param, file[param])` of the
first record, looked up in the second record `r2`. -/
def paramStep (r2 : Record) (a : Record × Counters) (p : String × String) :
    Record × Counters :=
  match r2.lookup p.1 with
  | some p2 =>
      if p.2 == p2 then
        (setValue a.1 p.1 p.2, { a.2 with identical := a.2.identical + 1 })
      else
        let value := if p.2 == "NOASSERTION" then p2 else p.2
        (setValue a.1 p.1 value, { a.2 with updated := a.2.updated + 1 })
  | none => (setValue a.1 p.1 p.2, { a.2 with additional := a.2.additional + 1 })

/-- The attribute reconciliation of `r1` against `r2` into the record object
`sb` (cli.py lines 136-158 / 221-243): first every parameter of `r1` is set
according to the conflict policy, then every parameter of `r2` absent from
`r1` is added. -/
def mergeParams (r1 r2 : Record) (sb : Record) (c : Counters) : Record × Counters :=
  let a := r1.foldl (paramStep r2) (sb, c)
  (r2.foldl (fun sbb p => if hasKey r1 p.1 then sbb else setValue sbb p.1 p.2) a.1, a.2)

/-- One step of the inner file loop (cli.py lines 133-158): reconcile only
against the files of B whose name equals the name of `file`. -/
def fileStep (file : Record) (a : Record × Counters) (file2 : Record) :
    Record × Counters :=
  if getName file2 == getName file then mergeParams file file2 a.1 a.2 else a

/-- The merged collections being accumulated: a name-keyed file dictionary
plus the counters. -/
structure FileAcc where
  files : List (String × Record)
  c : Counters
deriving Repr, DecidableEq

/-- One iteration of the first file loop (cli.py lines 130-163): if an
exact-equal copy of `file` is in `files2`, reconcile `file` against every
same-named file of `files2`; otherwise copy `file` verbatim and count it as
merged.  The resulting record is stored under its own name. -/
def processFile1 (files2 : List Record) (acc : FileAcc) (file : Record) : FileAcc :=
  let a :=
    if dictMem file files2 then files2.foldl (fileStep file) ([], acc.c)
    else (copyRecord file, { acc.c with merged := acc.c.merged + 1 })
  ⟨dictInsert acc.files (getName a.1) a.1, a.2⟩

/-- One iteration of the second file loop (cli.py lines 164-175): when A has
files, copy every file of B without an exact-equal copy in A and count it as
merged; when A has no files, copy every file of B and count it as unchanged. -/
def processFile2 (files1 : List Record) (acc : FileAcc) (file : Record) : FileAcc :=
  if files1.length > 0 then
    if dictMem file files1 then acc
    else
      let sb := copyRecord file
      ⟨dictInsert acc.files (getName sb) sb,
       { acc.c with merged := acc.c.merged + 1 }⟩
  else
    let sb := copyRecord file
    ⟨dictInsert acc.files (getName sb) sb,
     { acc.c with identical := acc.c.identical + 1 }⟩

/-- The file set merger (cli.py lines 127-175). -/
def mergeFiles (files1 files2 : List Record) (c : Counters) : FileAcc :=
  files2.foldl (processFile2 files1) (files1.foldl (processFile1 files2) ⟨[], c⟩)

/-- The version guard condition (cli.py lines 207-211): both packages carry
a `version` key and the two values differ. -/
def versionMismatch (p q : Record) : Bool :=
  hasKey p "version" && hasKey q "version" && (p.lookup "version" != q.lookup "version")

/-- One step of the inner package loop (cli.py lines 205-243): same-named
packages with mismatching versions are reported as an error and skipped
(`continue`); the remaining same-named packages are reconciled. -/
def pkgStep (package : Record) (a : Record × Counters) (package2 : Record) :
    Record × Counters :=
  if getName package2 == getName package then
    if versionMismatch package package2 then
      (a.1, { a.2 with errors := a.2.errors + 1 })
    else mergeParams package package2 a.1 a.2
  else a

/-- A package dictionary key: `(get_name(), get_value("version"))`, where
`get_value` yields `none` for an absent attribute. -/
abbrev PkgKey := String × Option String

/-- The merged package dictionary being accumulated plus the counters. -/
structure PkgAcc where
  pkgs : List (PkgKey × Record)
  c : Counters
deriving Repr, DecidableEq

/-- One iteration of the first package loop (cli.py lines 201-250). -/
def processPackage1 (packages2 : List Record) (acc : PkgAcc) (package : Record) :
    PkgAcc :=
  let a :=
    if dictMem package packages2 then packages2.foldl (pkgStep package) ([], acc.c)
    else (copyRecord package, { acc.c with merged := acc.c.merged + 1 })
  ⟨dictInsert acc.pkgs (getName a.1, a.1.lookup "version") a.1, a.2⟩

/-- One iteration of the second package loop (cli.py lines 251-259). -/
def processPackage2 (packages1 : List Record) (acc : PkgAcc) (package : Record) :
    PkgAcc :=
  if dictMem package packages1 then acc
  else
    let sb := copyRecord package
    ⟨dictInsert acc.pkgs (getName sb, sb.lookup "version") sb,
     { acc.c with merged := acc.c.merged + 1 }⟩

/-- `s.replace('.', '-')`: since the pattern is the single character `.`,
the replacement is exactly a character map. -/
def dotToDash (s : String) : String :=
  ⟨s.data.map (fun ch => if ch = '.' then '-' else ch)⟩

/-- The synthetic root package name (cli.py line 184).  The two arguments
are the basenames of the two input files; extracting the basename from the
path is part of the excluded CLI layer. -/
def rootPackageName (f1 f2 : String) : String :=
  "MERGETOOL-" ++ dotToDash f1 ++ "-" ++ dotToDash f2

/-- The synthetic document-root identifier (cli.py line 185). -/
def parentName (f1 f2 : String) : String := "SBOM-" ++ rootPackageName f1 f2

/-- The synthetic root package record (cli.py lines 183-193), built by the
lib4sbom setters: name, type `application`, files analysis disabled, both
licenses and the supplier set to the `NOASSERTION`/`UNKNOWN` placeholders.
It carries no `version` attribute. -/
def rootPackage (f1 f2 : String) : Record :=
  [("name", rootPackageName f1 f2), ("type", "application"),
   ("filesanalysis", "False"), ("licensedeclared", "NOASSERTION"),
   ("licenseconcluded", "NOASSERTION"),
   ("supplier_type", "UNKNOWN"), ("supplier", "NOASSERTION")]

/-- An input relationship record: the parser guarantees the `source`,
`type` and `target` fields (spec section 3). -/
structure Rel where
  source : String
  rtype : String
  target : String
deriving Repr, DecidableEq

/-- An output relationship: the resolved triple plus the endpoint type
classification (absent on the synthetic edges, which never set it). -/
structure MergedRel where
  source : String
  rtype : String
  target : String
  sourceType : Option String
  targetType : Option String
deriving Repr, DecidableEq

/-- The endpoint resolution state of the relationship rebuild loops
(cli.py lines 262-265 / 287-290). -/
structure Resolve where
  source : Option String
  target : Option String
  sourceType : String
  targetType : String
deriving Repr, DecidableEq

/-- One step of the file resolution loop (cli.py lines 267-273): note the
`elif`, so one file record never resolves both endpoints. -/
def resolveStepFile (r : Rel) (a : Resolve) (f : Record) : Resolve :=
  if getName f == r.source then { a with source := some (getName f), sourceType := "file" }
  else if getName f == r.target then { a with target := some (getName f), targetType := "file" }
  else a

/-- One step of the package resolution loop (cli.py lines 274-278): the
endpoint types are left unchanged (they default to `package`). -/
def resolveStepPkg (r : Rel) (a : Resolve) (p : Record) : Resolve :=
  if getName p == r.source then { a with source := some (getName p) }
  else if getName p == r.target then { a with target := some (getName p) }
  else a

/-- Rebuild one relationship against the source document's own collections
(cli.py lines 261-284 / 286-309): emit it only when both endpoints
resolved. -/
def rebuildRel (fs ps : List Record) (r : Rel) : Option MergedRel :=
  let a0 : Resolve := ⟨none, none, "package", "package"⟩
  let a1 := fs.foldl (resolveStepFile r) a0
  let a2 := ps.foldl (resolveStepPkg r) a1
  match a2.source, a2.target with
  | some s, some t => some ⟨s, r.rtype, t, some a2.sourceType, some a2.targetType⟩
  | _, _ => none

/-- All relationships of one source document rebuilt in order; unresolvable
ones are dropped. -/
def rebuiltRels (fs ps : List Record) (rels : List Rel) : List MergedRel :=
  rels.filterMap (rebuildRel fs ps)

/-- The trailing synthetic edges (cli.py lines 311-315): one `CONTAINS`
edge from the root package to the name component of every key of the final
merged package dictionary, in dictionary order. -/
def containsEdges (root : String) (pkgs : List (PkgKey × Record)) : List MergedRel :=
  pkgs.map (fun e => ⟨root, "CONTAINS", e.1.1, none, none⟩)

/-- The synthetic `DESCRIBES` edge (cli.py lines 198-200). -/
def describesEdge (f1 f2 : String) : MergedRel :=
  ⟨parentName f1 f2, "DESCRIBES", rootPackageName f1 f2, none, none⟩

/-- One parsed input document (spec section 3). -/
structure Document where
  files : List Record
  packages : List Record
  relationships : List Rel
deriving Repr, DecidableEq

/-- The engine's output (spec section 3): the merged file and package
dictionaries, the ordered relationship sequence and the final counters. -/
structure MergedDoc where
  files : List (String × Record)
  packages : List (PkgKey × Record)
  relationships : List MergedRel
  counters : Counters
deriving Repr, DecidableEq

/-- The package set merger (cli.py lines 201-259), starting from the
dictionary already holding the root package. -/
def mergePackages (packages1 packages2 : List Record) (acc : PkgAcc) : PkgAcc :=
  packages2.foldl (processPackage2 packages1)
    (packages1.foldl (processPackage1 packages2) acc)

/-- The whole reconciliation engine (cli.py lines 121-342): merge the
files, insert the root package, merge the packages, then assemble the
relationship sequence: the `DESCRIBES` edge first, the rebuilt edges of
document 1 then document 2, and the `CONTAINS` edges last. -/
def mergeDocuments (f1 f2 : String) (d1 d2 : Document) : MergedDoc :=
  let fa := mergeFiles d1.files d2.files {}
  let root := rootPackage f1 f2
  let pkgs0 : List (PkgKey × Record) :=
    dictInsert [] (getName root, root.lookup "version") root
  let pa := mergePackages d1.packages d2.packages ⟨pkgs0, fa.c⟩
  let rels :=
    describesEdge f1 f2 ::
      (rebuiltRels d1.files d1.packages d1.relationships ++
       rebuiltRels d2.files d2.packages d2.relationships ++
       containsEdges (rootPackageName f1 f2) pa.pkgs)
  ⟨fa.files, pa.pkgs, rels, pa.c⟩

/-- Python `or` on integers: the first operand if it is truthy (nonzero),
otherwise the second. -/
def pyOr (a b : Nat) : Nat := if a != 0 then a else b

/-- The process return code after a merge (cli.py lines 355-359):
`1` when any of `updated`, `additional` (new) or `merged` is nonzero,
else `0`. -/
def returnCode (c : Counters) : Int :=
  if pyOr (pyOr c.updated c.additional) c.merged != 0 then 1 else 0

/-- The process-level outcome (cli.py lines 74-88 and 355-359): equal input
identifiers or a missing input file yield `-1` before the engine runs;
otherwise the merge runs and the return code reports whether differences
were found.  File existence is modelled by the two booleans, since the file
system belongs to the excluded CLI layer. -/
def runProcess (file1 file2 : String) (exists1 exists2 : Bool)
    (d1 d2 : Document) : Int :=
  if file1 != file2 then
    if !exists1 || !exists2 then -1
    else returnCode (mergeDocuments file1 file2 d1 d2).counters
  else -1

/-- A well-formed parsed record: it has a `name` attribute and, being a
Python dictionary, no duplicate keys. -/
def WFRecord (r : Record) : Prop :=
  hasKey r "name" = true ∧ (r.map Prod.fst).Nodup

/-- A well-formed parsed document: every file and package record is
well-formed. -/
def WFDoc (d : Document) : Prop :=
  (∀ f ∈ d.files, WFRecord f) ∧ (∀ p ∈ d.packages, WFRecord p)

instance : DecidablePred WFRecord := fun r => by
  unfold WFRecord; infer_instance

instance (d : Document) : Decidable (WFDoc d) := by
  unfold WFDoc; infer_instance

/-! ### Derived notions used to state the properties -/

/-- The keys of a dictionary, in insertion order. -/
def keys {α β : Type} (m : List (α × β)) : List α := m.map Prod.fst

/-- The per-attribute conflict policy value (cli.py lines 140-150): an equal
value is kept; on a difference the first record's value wins unless it is
`NOASSERTION`, in which case the second record's value is taken; an
attribute absent from the second record keeps the first record's value. -/
def polVal (v1 : String) (o : Option String) : String :=
  match o with
  | some v2 => if v1 == "NOASSERTION" then v2 else v1
  | none => v1

/-- Attribute present in both records with equal values. -/
def isIdenticalAttr (r2 : Record) (p : String × String) : Bool :=
  match r2.lookup p.1 with
  | some q => p.2 == q
  | none => false

/-- Attribute present in both records with differing values. -/
def isUpdatedAttr (r2 : Record) (p : String × String) : Bool :=
  match r2.lookup p.1 with
  | some q => p.2 != q
  | none => false

/-- Attribute absent from the second record. -/
def isAdditionalAttr (r2 : Record) (p : String × String) : Bool :=
  (r2.lookup p.1).isNone

/-- The value the attribute reconciliation assigns to key `k` when merging
`r1` against `r2`, as an optional value (`none` when neither record has the
attribute). -/
def mergedValue (r1 r2 : Record) (k : String) : Option String :=
  match r1.lookup k, r2.lookup k with
  | some v1, o => some (polVal v1 o)
  | none, some v2 => some v2
  | none, none => none

/-- The records of a collection whose name equals `n`. -/
def nameMatches (rs : List Record) (n : String) : List Record :=
  rs.filter (fun r => getName r == n)

/-- Reconciling one record against a list of matched records in order,
accumulating into the same record object (the shape of the inner
name-match loops). -/
def reconcileRun (r1 : Record) (a : Record × Counters) (l : List Record) :
    Record × Counters :=
  l.foldl (fun acc r2 => mergeParams r1 r2 acc.1 acc.2) a

/-- The inner package loop restricted to name matches: a version mismatch
reports an error and skips the pair, otherwise the pair is reconciled. -/
def pkgInnerStep (package : Record) (a : Record × Counters) (q : Record) :
    Record × Counters :=
  if versionMismatch package q then (a.1, { a.2 with errors := a.2.errors + 1 })
  else mergeParams package q a.1 a.2

/-- A name resolves within a document when some file or package bears it. -/
def resolvesName (fs ps : List Record) (n : String) : Bool :=
  fs.any (fun e => getName e == n) || ps.any (fun e => getName e == n)

/-- An endpoint name is acceptable in the merged document when it names a
merged file, names a merged package, or is the synthetic root package or
the synthetic document-root identifier. -/
def okEndpoint (m : MergedDoc) (root parent n : String) : Prop :=
  n ∈ m.files.map Prod.fst ∨ (∃ e ∈ m.packages, e.1.1 = n) ∨
    n = root ∨ n = parent

instance (m : MergedDoc) (root parent n : String) :
    Decidable (okEndpoint m root parent n) := by
  unfold okEndpoint
  infer_instance

/-! ### Dictionary lemmas -/

theorem lookup_cons_if {α β : Type} [BEq α] (a : α) (p : α × β) (es : List (α × β)) :
    List.lookup a (p :: es) = if a == p.1 then some p.2 else List.lookup a es := by
  obtain ⟨k, b⟩ := p
  rw [List.lookup_cons]; cases h : a == k <;> simp [h]

theorem lookup_dictInsert {α β : Type} [BEq α] [LawfulBEq α]
    (m : List (α × β)) (k : α) (v : β) (q : α) :
    (dictInsert m k v).lookup q = if q == k then some v else m.lookup q := by
  induction m with
  | nil => simp [dictInsert, lookup_cons_if]
  | cons p rest ih =>
      by_cases h : p.1 = k
      · have h' : (p.1 == k) = true := by simp [h]
        simp only [dictInsert, h', if_true]
        by_cases hq : q = k <;> simp [lookup_cons_if, hq, h]
      · have h' : (p.1 == k) = false := by simp [h]
        simp only [dictInsert, h', Bool.false_eq_true, if_false]
        by_cases hq : q = k <;> by_cases hp : q = p.1 <;>
          simp [lookup_cons_if, hq, hp, ih] <;> simp_all

theorem lookup_eq_none_of_not_mem_keys {α β : Type} [BEq α] [LawfulBEq α]
    {m : List (α × β)} {q : α} (h : q ∉ keys m) : m.lookup q = none := by
  induction m with
  | nil => rfl
  | cons p rest ih =>
      simp only [keys, List.map_cons, List.mem_cons, not_or] at h
      simp [lookup_cons_if, h.1, ih (by simpa [keys] using h.2)]

theorem lookup_isSome_iff_mem_keys {α β : Type} [BEq α] [LawfulBEq α]
    {m : List (α × β)} {q : α} : (m.lookup q).isSome = true ↔ q ∈ keys m := by
  induction m with
  | nil => simp [keys]
  | cons p rest ih =>
      by_cases hq : q = p.1 <;> simp [lookup_cons_if, hq, keys, ih, keys] at *

theorem mem_of_lookup_eq_some {α β : Type} [BEq α] [LawfulBEq α]
    {m : List (α × β)} {q : α} {v : β} (h : m.lookup q = some v) : (q, v) ∈ m := by
  induction m with
  | nil => simp at h
  | cons p rest ih =>
      rw [lookup_cons_if] at h
      by_cases hq : q = p.1
      · simp [hq] at h
        simp [hq, ← h]
      · simp [hq] at h
        exact List.mem_cons_of_mem _ (ih h)

theorem mem_keys_dictInsert {α β : Type} [BEq α] [LawfulBEq α]
    {m : List (α × β)} {k q : α} {v : β} :
    q ∈ keys (dictInsert m k v) ↔ q = k ∨ q ∈ keys m := by
  induction m with
  | nil => simp [dictInsert, keys]
  | cons p rest ih =>
      by_cases h : p.1 = k
      · subst h
        simp [dictInsert, keys, List.map_cons]
      · have h' : (p.1 == k) = false := by simp [h]
        simp only [dictInsert, h', Bool.false_eq_true, if_false]
        simp [keys, List.map_cons] at ih ⊢
        tauto

theorem keys_dictInsert_mono {α β : Type} [BEq α] [LawfulBEq α]
    {m : List (α × β)} {k q : α} {v : β} (h : q ∈ keys m) :
    q ∈ keys (dictInsert m k v) := mem_keys_dictInsert.mpr (Or.inr h)

theorem dictInsert_of_not_mem_keys {α β : Type} [BEq α] [LawfulBEq α]
    {m : List (α × β)} {k : α} (v : β) (h : k ∉ keys m) :
    dictInsert m k v = m ++ [(k, v)] := by
  induction m with
  | nil => rfl
  | cons p rest ih =>
      simp only [keys, List.map_cons, List.mem_cons, not_or] at h
      have h' : (p.1 == k) = false := by simp; exact fun e => h.1 e.symm
      simp [dictInsert, h', ih (by simpa [keys] using h.2)]

theorem hasKey_iff_mem_keys {r : Record} {k : String} :
    hasKey r k = true ↔ k ∈ keys r := by
  unfold hasKey; exact lookup_isSome_iff_mem_keys

theorem hasKey_setValue (r : Record) (k v q : String) :
    hasKey (setValue r k v) q = (q == k || hasKey r q) := by
  unfold hasKey setValue
  rw [lookup_dictInsert]
  by_cases hq : q = k <;> simp [hq]

theorem foldl_preserve {α β : Type} (P : β → Prop) (step : β → α → β)
    (l : List α) (init : β) (h0 : P init)
    (hstep : ∀ a x, x ∈ l → P a → P (step a x)) : P (l.foldl step init) := by
  induction l generalizing init with
  | nil => exact h0
  | cons x rest ih =>
      exact ih (step init x) (hstep init x (by simp) h0)
        (fun a y hy ha => hstep a y (by simp [hy]) ha)

theorem foldl_if_filter {α β : Type} (p : α → Bool) (g : β → α → β)
    (l : List α) (init : β) :
    l.foldl (fun a x => if p x then g a x else a) init = (l.filter p).foldl g init := by
  induction l generalizing init with
  | nil => rfl
  | cons x rest ih => by_cases h : p x <;> simp [List.filter_cons, h, ih]

theorem nodup_keys_dictInsert {α β : Type} [BEq α] [LawfulBEq α]
    {m : List (α × β)} (k : α) (v : β) (h : (keys m).Nodup) :
    (keys (dictInsert m k v)).Nodup := by
  induction m with
  | nil => simp [dictInsert, keys]
  | cons p rest ih =>
      rw [keys, List.map_cons, List.nodup_cons] at h
      by_cases hp : p.1 = k
      · have h' : (p.1 == k) = true := by simp [hp]
        simp only [dictInsert, h', if_true]
        rw [keys, List.map_cons, List.nodup_cons]
        exact ⟨by rw [← hp]; exact h.1, h.2⟩
      · have h' : (p.1 == k) = false := by simp [hp]
        simp only [dictInsert, h', Bool.false_eq_true, if_false]
        rw [keys, List.map_cons, List.nodup_cons]
        refine ⟨fun hmem => ?_, ih h.2⟩
        rcases mem_keys_dictInsert.mp hmem with h1 | h1
        · exact hp h1
        · exact h.1 h1

theorem foldl_setValue_append (l : List (String × String)) (sb : Record)
    (hnd : (keys l).Nodup) (hdisj : ∀ q ∈ keys l, q ∉ keys sb) :
    l.foldl (fun s p => setValue s p.1 p.2) sb = sb ++ l := by
  induction l generalizing sb with
  | nil => simp
  | cons p rest ih =>
      rw [keys, List.map_cons, List.nodup_cons] at hnd
      have hp : p.1 ∉ keys sb := hdisj p.1 (by simp [keys])
      rw [List.foldl_cons]
      have e1 : setValue sb p.1 p.2 = sb ++ [p] := by
        have e := dictInsert_of_not_mem_keys (m := sb) (k := p.1) p.2 hp
        simpa [setValue] using e
      rw [e1, ih (sb ++ [p]) hnd.2]
      · simp
      · intro q hq
        have hql : q ∈ keys (p :: rest) := by simp [keys] at hq ⊢; exact Or.inr hq
        have hqs : q ∉ keys sb := hdisj q hql
        have hqp : q ≠ p.1 := by
          intro e; rw [e] at hq; exact hnd.1 hq
        intro hq2
        rw [keys, List.map_append] at hq2
        rcases List.mem_append.mp hq2 with h1 | h1
        · exact hqs h1
        · simp at h1; exact hqp h1

theorem copyRecord_eq_self (r : Record) (h : (keys r).Nodup) : copyRecord r = r := by
  have e := foldl_setValue_append r [] h (by simp [keys])
  simpa [copyRecord] using e

theorem paramStep_fst (r2 : Record) (a : Record × Counters) (p : String × String) :
    (paramStep r2 a p).1 = setValue a.1 p.1 (polVal p.2 (r2.lookup p.1)) := by
  unfold paramStep polVal
  cases h : r2.lookup p.1 with
  | none => rfl
  | some v2 =>
      cases he : p.2 == v2 with
      | false => simp [he]
      | true =>
          have hev : p.2 = v2 := by simpa using he
          simp [he, hev]

theorem phase1_fst (r2 : Record) (l : List (String × String)) (sb : Record)
    (c : Counters) :
    (l.foldl (paramStep r2) (sb, c)).1 =
      l.foldl (fun s p => setValue s p.1 (polVal p.2 (r2.lookup p.1))) sb := by
  induction l generalizing sb c with
  | nil => rfl
  | cons p rest ih =>
      rw [List.foldl_cons, List.foldl_cons]
      have e := ih (paramStep r2 (sb, c) p).1 (paramStep r2 (sb, c) p).2
      rw [Prod.mk.eta] at e
      rw [e, paramStep_fst]

theorem phase1_snd (r2 : Record) (l : List (String × String)) (sb : Record)
    (c : Counters) :
    (l.foldl (paramStep r2) (sb, c)).2 =
      { identical := c.identical + l.countP (isIdenticalAttr r2),
        updated := c.updated + l.countP (isUpdatedAttr r2),
        additional := c.additional + l.countP (isAdditionalAttr r2),
        merged := c.merged, errors := c.errors } := by
  induction l generalizing sb c with
  | nil =>
      obtain ⟨ci, cu, ca, cm, ce⟩ := c
      simp
  | cons p rest ih =>
      rw [List.foldl_cons]
      have e := ih (paramStep r2 (sb, c) p).1 (paramStep r2 (sb, c) p).2
      rw [Prod.mk.eta] at e
      rw [e]
      unfold paramStep isIdenticalAttr isUpdatedAttr isAdditionalAttr
      cases h : r2.lookup p.1 with
      | none =>
          simp only [h, List.countP_cons, isIdenticalAttr, isUpdatedAttr,
            isAdditionalAttr, Option.isNone_none]
          simp [Counters.mk.injEq]
          omega
      | some v2 =>
          cases he : p.2 == v2 with
          | false =>
              simp only [h, he, List.countP_cons, isIdenticalAttr, isUpdatedAttr,
                isAdditionalAttr]
              simp [Counters.mk.injEq, he, bne]
              omega
          | true =>
              simp only [h, he, List.countP_cons, isIdenticalAttr, isUpdatedAttr,
                isAdditionalAttr]
              simp [Counters.mk.injEq, he, bne]
              omega

theorem lookup_foldl_setValueWith (g : String × String → String)
    (l : List (String × String)) (sb : Record) (k : String)
    (h : (keys l).Nodup) :
    (l.foldl (fun s p => setValue s p.1 (g p)) sb).lookup k =
      match l.lookup k with
      | some v => some (g (k, v))
      | none => sb.lookup k := by
  induction l generalizing sb with
  | nil => simp
  | cons p rest ih =>
      obtain ⟨k0, v0⟩ := p
      rw [keys, List.map_cons, List.nodup_cons] at h
      rw [List.foldl_cons]
      rw [ih _ h.2]
      by_cases hk : k = k0
      · subst hk
        have hrest : rest.lookup k = none :=
          lookup_eq_none_of_not_mem_keys h.1
        rw [hrest, lookup_cons_if]
        simp [setValue, lookup_dictInsert]
      · have hk' : (k == k0) = false := by simp [hk]
        rw [lookup_cons_if]
        simp only [hk', Bool.false_eq_true, if_false]
        cases hr : rest.lookup k with
        | some v => rfl
        | none => simp [setValue, lookup_dictInsert, hk']

theorem phase2_lookup (r1 : Record) (l : List (String × String)) (sb : Record)
    (k : String) (h2 : (keys l).Nodup) :
    (l.foldl (fun s p => if hasKey r1 p.1 then s else setValue s p.1 p.2) sb).lookup k =
      if hasKey r1 k then sb.lookup k
      else
        match l.lookup k with
        | some v => some v
        | none => sb.lookup k := by
  induction l generalizing sb with
  | nil => cases hr1 : hasKey r1 k <;> simp [hr1]
  | cons p rest ih =>
      obtain ⟨k0, v0⟩ := p
      rw [keys, List.map_cons, List.nodup_cons] at h2
      rw [List.foldl_cons]
      by_cases h0 : hasKey r1 k0
      · simp only [h0, if_true]
        rw [ih sb h2.2]
        by_cases hr1 : hasKey r1 k
        · simp [hr1]
        · have hk : k ≠ k0 := fun e => hr1 (e ▸ h0)
          have hk' : (k == k0) = false := by simp [hk]
          simp [hr1, lookup_cons_if, hk']
      · simp only [h0, Bool.false_eq_true, if_false]
        rw [ih _ h2.2]
        by_cases hr1 : hasKey r1 k
        · have hk : k ≠ k0 := fun e => h0 (e ▸ hr1)
          have hk' : (k == k0) = false := by simp [hk]
          simp [hr1, setValue, lookup_dictInsert, hk']
        · by_cases hk : k = k0
          · subst hk
            have hrest : rest.lookup k = none :=
              lookup_eq_none_of_not_mem_keys h2.1
            simp [hrest, hr1, lookup_cons_if, setValue, lookup_dictInsert]
          · have hk' : (k == k0) = false := by simp [hk]
            simp only [hr1, Bool.false_eq_true, if_false, lookup_cons_if, hk']
            cases hr : rest.lookup k with
            | some v => rfl
            | none => simp [setValue, lookup_dictInsert, hk']

theorem lookup_mergeParams (r1 r2 sb : Record) (c : Counters) (k : String)
    (h1 : (keys r1).Nodup) (h2 : (keys r2).Nodup) :
    (mergeParams r1 r2 sb c).1.lookup k =
      (mergedValue r1 r2 k).or (sb.lookup k) := by
  unfold mergeParams
  simp only
  rw [phase2_lookup r1 r2 _ k h2]
  by_cases hk : hasKey r1 k
  · obtain ⟨v1, hv1⟩ : ∃ v1, r1.lookup k = some v1 := by
      have := hk
      unfold hasKey at this
      exact Option.isSome_iff_exists.mp this
    rw [phase1_fst, lookup_foldl_setValueWith _ _ _ _ h1]
    simp [hk, hv1, mergedValue]
  · have hv1 : r1.lookup k = none := by
      unfold hasKey at hk
      exact Option.not_isSome_iff_eq_none.mp hk
    simp only [hk, Bool.false_eq_true, if_false]
    cases hv2 : r2.lookup k with
    | some v2 => simp [mergedValue, hv1, hv2]
    | none =>
        rw [phase1_fst, lookup_foldl_setValueWith _ _ _ _ h1]
        simp [mergedValue, hv1, hv2]

theorem mergeParams_snd (r1 r2 sb : Record) (c : Counters) :
    (mergeParams r1 r2 sb c).2 =
      { identical := c.identical + r1.countP (isIdenticalAttr r2),
        updated := c.updated + r1.countP (isUpdatedAttr r2),
        additional := c.additional + r1.countP (isAdditionalAttr r2),
        merged := c.merged, errors := c.errors } :=
  phase1_snd r2 r1 sb c

theorem hasKey_cons (p : String × String) (r : Record) (q : String) :
    hasKey (p :: r) q = (q == p.1 || hasKey r q) := by
  unfold hasKey
  rw [lookup_cons_if]
  cases h : q == p.1 <;> simp [h]

theorem phase1_hasKey (r2 : Record) (l : List (String × String)) (sb : Record)
    (c : Counters) (q : String) :
    hasKey (l.foldl (paramStep r2) (sb, c)).1 q = (hasKey l q || hasKey sb q) := by
  rw [phase1_fst]
  induction l generalizing sb with
  | nil => simp [hasKey]
  | cons p rest ih =>
      rw [List.foldl_cons, ih, hasKey_cons, hasKey_setValue]
      cases h1 : q == p.1 <;> cases h2 : hasKey rest q <;> simp [h1, h2]

theorem phase2_hasKey (r1 : Record) (l : List (String × String)) (sb : Record)
    (q : String) :
    hasKey (l.foldl (fun s p => if hasKey r1 p.1 then s else setValue s p.1 p.2) sb) q =
      ((hasKey l q && !hasKey r1 q) || hasKey sb q) := by
  induction l generalizing sb with
  | nil => simp [hasKey]
  | cons p rest ih =>
      rw [List.foldl_cons]
      by_cases h0 : hasKey r1 p.1
      · simp only [h0, if_true]
        rw [ih, hasKey_cons]
        by_cases hq : q = p.1
        · subst hq
          simp [h0]
        · have hq' : (q == p.1) = false := by simp [hq]
          simp [hq']
      · simp only [h0, Bool.false_eq_true, if_false]
        rw [ih, hasKey_cons, hasKey_setValue]
        by_cases hq : q = p.1
        · have hq' : (q == p.1) = true := by simp [hq]
          have h0' : hasKey r1 q = false := by rw [hq]; simpa using h0
          simp [hq', h0']
        · have hq' : (q == p.1) = false := by simp [hq]
          simp [hq']

theorem hasKey_mergeParams (r1 r2 sb : Record) (c : Counters) (q : String) :
    hasKey (mergeParams r1 r2 sb c).1 q =
      (hasKey r1 q || hasKey r2 q || hasKey sb q) := by
  unfold mergeParams
  simp only
  rw [phase2_hasKey, phase1_hasKey]
  cases h1 : hasKey r1 q <;> cases h2 : hasKey r2 q <;> cases h3 : hasKey sb q <;>
    simp [h1, h2, h3]

/-! ### Restructuring the merge folds -/

theorem fileFold_eq (file : Record) (files2 : List Record) (a : Record × Counters) :
    files2.foldl (fileStep file) a =
      reconcileRun file a (nameMatches files2 (getName file)) := by
  unfold fileStep nameMatches reconcileRun
  exact foldl_if_filter (fun file2 => getName file2 == getName file)
    (fun a file2 => mergeParams file file2 a.1 a.2) files2 a

theorem pkgFold_eq (package : Record) (packages2 : List Record)
    (a : Record × Counters) :
    packages2.foldl (pkgStep package) a =
      (nameMatches packages2 (getName package)).foldl (pkgInnerStep package) a := by
  unfold pkgStep nameMatches pkgInnerStep
  exact foldl_if_filter (fun package2 => getName package2 == getName package)
    (fun a package2 =>
      if versionMismatch package package2 then
        (a.1, { a.2 with errors := a.2.errors + 1 })
      else mergeParams package package2 a.1 a.2) packages2 a

theorem mergeParams_fst_counters (r1 r2 sb : Record) (c c' : Counters) :
    (mergeParams r1 r2 sb c).1 = (mergeParams r1 r2 sb c').1 := by
  unfold mergeParams
  simp only
  rw [phase1_fst, phase1_fst]

theorem mergeParams_errors_bump (r1 r2 sb : Record) (c : Counters) (n : Nat) :
    mergeParams r1 r2 sb { c with errors := c.errors + n } =
      ((mergeParams r1 r2 sb c).1,
       { (mergeParams r1 r2 sb c).2 with
         errors := (mergeParams r1 r2 sb c).2.errors + n }) := by
  refine Prod.ext (mergeParams_fst_counters _ _ _ _ _) ?_
  rw [mergeParams_snd, mergeParams_snd]

theorem reconcileRun_errors_bump (r1 : Record) (l : List Record) (sb : Record)
    (c : Counters) (n : Nat) :
    reconcileRun r1 (sb, { c with errors := c.errors + n }) l =
      ((reconcileRun r1 (sb, c) l).1,
       { (reconcileRun r1 (sb, c) l).2 with
         errors := (reconcileRun r1 (sb, c) l).2.errors + n }) := by
  induction l generalizing sb c with
  | nil => rfl
  | cons r2 rest ih =>
      show reconcileRun r1 (mergeParams r1 r2 sb { c with errors := c.errors + n }) rest = _
      rw [mergeParams_errors_bump]
      rw [ih (mergeParams r1 r2 sb c).1 (mergeParams r1 r2 sb c).2]
      rw [Prod.mk.eta]
      rfl

theorem pkgInner_spec (package : Record) (l : List Record) (sb : Record)
    (c : Counters) :
    l.foldl (pkgInnerStep package) (sb, c) =
      ((reconcileRun package (sb, c)
          (l.filter (fun q => !versionMismatch package q))).1,
       { (reconcileRun package (sb, c)
            (l.filter (fun q => !versionMismatch package q))).2 with
         errors :=
           (reconcileRun package (sb, c)
              (l.filter (fun q => !versionMismatch package q))).2.errors
             + l.countP (fun q => versionMismatch package q) }) := by
  induction l generalizing sb c with
  | nil =>
      refine Prod.ext rfl ?_
      show c = { c with errors := c.errors + 0 }
      obtain ⟨ci, cu, ca, cm, ce⟩ := c
      simp
  | cons q rest ih =>
      rw [List.foldl_cons, List.filter_cons, List.countP_cons]
      by_cases hv : versionMismatch package q
      · simp only [hv, Bool.not_true, Bool.false_eq_true, if_false, if_true,
          pkgInnerStep]
        rw [ih sb { c with errors := c.errors + 1 }]
        have hb := reconcileRun_errors_bump package
          (rest.filter (fun q => !versionMismatch package q)) sb c 1
        rw [hb]
        refine Prod.ext rfl ?_
        simp only
        congr 1
        omega
      · have hv' : (versionMismatch package q) = false := by simpa using hv
        simp only [hv', Bool.not_false, Bool.false_eq_true, if_false, if_true,
          pkgInnerStep]
        have e := ih (mergeParams package q sb c).1 (mergeParams package q sb c).2
        rw [Prod.mk.eta] at e
        rw [e]
        refine Prod.ext rfl ?_
        simp only
        congr 1

/-! ### Name preservation -/

theorem getName_eq_of_recordEq {f g : Record} (hf : hasKey f "name" = true)
    (h : recordEq f g = true) : getName g = getName f := by
  obtain ⟨v, hv⟩ := Option.isSome_iff_exists.mp hf
  have hmem : ("name", v) ∈ f := mem_of_lookup_eq_some hv
  unfold recordEq at h
  have h1 := (List.all_eq_true.mp (Bool.and_elim_left h)) _ hmem
  simp only [beq_iff_eq] at h1
  unfold getName
  rw [hv, h1]

theorem versionMismatch_of_recordEq {p g : Record} (h : recordEq p g = true) :
    versionMismatch p g = false := by
  unfold versionMismatch
  cases hk : hasKey p "version" with
  | false => simp [hk]
  | true =>
      obtain ⟨v, hv⟩ := Option.isSome_iff_exists.mp hk
      have hmem : ("version", v) ∈ p := mem_of_lookup_eq_some hv
      unfold recordEq at h
      have h1 := (List.all_eq_true.mp (Bool.and_elim_left h)) _ hmem
      simp only [beq_iff_eq] at h1
      simp [hk, hv, h1]

theorem getName_congr {a b : Record} (h : a.lookup "name" = b.lookup "name") :
    getName a = getName b := by
  unfold getName
  rw [h]

theorem getName_mergeParams (r1 r2 sb : Record) (c : Counters)
    (h1 : (keys r1).Nodup) (h2 : (keys r2).Nodup)
    (hn1 : hasKey r1 "name" = true) (hn2 : hasKey r2 "name" = true)
    (hm : getName r2 = getName r1) :
    (mergeParams r1 r2 sb c).1.lookup "name" = r1.lookup "name" := by
  obtain ⟨v1, hv1⟩ := Option.isSome_iff_exists.mp hn1
  obtain ⟨v2, hv2⟩ := Option.isSome_iff_exists.mp hn2
  have hv : v2 = v1 := by
    unfold getName at hm
    rw [hv1, hv2] at hm
    simpa using hm
  rw [lookup_mergeParams r1 r2 sb c "name" h1 h2]
  subst hv
  simp only [mergedValue, hv1, hv2, polVal]
  cases hN : v2 == "NOASSERTION" <;> simp [hN]

theorem getName_reconcileRun (r1 : Record) (l : List Record) (sb : Record)
    (c : Counters) (h1 : WFRecord r1)
    (hl : ∀ q ∈ l, WFRecord q ∧ getName q = getName r1) (hne : l ≠ []) :
    (reconcileRun r1 (sb, c) l).1.lookup "name" = r1.lookup "name" := by
  induction l generalizing sb c with
  | nil => exact absurd rfl hne
  | cons q rest ih =>
      have hq := hl q (by simp)
      cases rest with
      | nil =>
          show (mergeParams r1 q sb c).1.lookup "name" = r1.lookup "name"
          exact getName_mergeParams r1 q sb c h1.2 hq.1.2 h1.1 hq.1.1 hq.2
      | cons q2 rest2 =>
          show (reconcileRun r1 (mergeParams r1 q sb c) (q2 :: rest2)).1.lookup "name" = _
          have e := ih (mergeParams r1 q sb c).1 (mergeParams r1 q sb c).2
            (fun x hx => hl x (List.mem_cons_of_mem q hx)) (by simp)
          rw [Prod.mk.eta] at e
          exact e

theorem lookup_eq_of_mem_nodup {r : Record} {k v : String}
    (hnd : (keys r).Nodup) (hmem : (k, v) ∈ r) : r.lookup k = some v := by
  induction r with
  | nil => simp at hmem
  | cons p rest ih =>
      rw [keys, List.map_cons, List.nodup_cons] at hnd
      rcases List.mem_cons.mp hmem with h | h
      · rw [← h, lookup_cons_if]
        simp
      · have hk : k ≠ p.1 := by
          intro e
          apply hnd.1
          rw [← e]
          exact List.mem_map_of_mem Prod.fst h
        have hk' : (k == p.1) = false := by simp [hk]
        rw [lookup_cons_if]
        simp only [hk', Bool.false_eq_true, if_false]
        exact ih hnd.2 h

theorem recordEq_refl {r : Record} (hnd : (keys r).Nodup) : recordEq r r = true := by
  unfold recordEq
  rw [Bool.and_self]
  rw [List.all_eq_true]
  intro p hp
  simp [lookup_eq_of_mem_nodup hnd hp]

theorem dictMem_iff {r : Record} {rs : List Record} :
    dictMem r rs = true ↔ ∃ g ∈ rs, recordEq r g = true := by
  unfold dictMem
  exact List.any_eq_true

theorem reconcileRun_merged_errors (r1 : Record) (l : List Record) (sb : Record)
    (c : Counters) :
    (reconcileRun r1 (sb, c) l).2.merged = c.merged ∧
    (reconcileRun r1 (sb, c) l).2.errors = c.errors := by
  induction l generalizing sb c with
  | nil => exact ⟨rfl, rfl⟩
  | cons q rest ih =>
      have e := ih (mergeParams r1 q sb c).1 (mergeParams r1 q sb c).2
      rw [Prod.mk.eta] at e
      have hstep : reconcileRun r1 (sb, c) (q :: rest) =
          reconcileRun r1 (mergeParams r1 q sb c) rest := rfl
      rw [hstep, e.1, e.2, mergeParams_snd]
      exact ⟨rfl, rfl⟩

theorem phase2_id (r1 : Record) (l : List (String × String)) (sb : Record)
    (h : ∀ p ∈ l, hasKey r1 p.1 = true) :
    l.foldl (fun s p => if hasKey r1 p.1 then s else setValue s p.1 p.2) sb = sb := by
  induction l generalizing sb with
  | nil => rfl
  | cons p rest ih =>
      rw [List.foldl_cons, h p (by simp)]
      simp only [if_true]
      exact ih sb (fun q hq => h q (List.mem_cons_of_mem p hq))

theorem mergeParams_self (r : Record) (c : Counters)
    (hnd : (keys r).Nodup) :
    mergeParams r r [] c =
      (r, { c with identical := c.identical + r.length }) := by
  refine Prod.ext ?_ ?_
  · show (mergeParams r r [] c).1 = r
    unfold mergeParams
    simp only
    rw [phase2_id r r _ (fun p hp => by
      unfold hasKey
      rw [lookup_eq_of_mem_nodup hnd hp]
      rfl)]
    rw [phase1_fst]
    have e : r.foldl (fun s p => setValue s p.1 (polVal p.2 (r.lookup p.1))) [] =
        r.foldl (fun s p => setValue s p.1 p.2) [] := by
      apply List.foldl_ext
      intro s p hp
      rw [lookup_eq_of_mem_nodup hnd hp]
      simp [polVal]
    rw [e]
    have e2 := foldl_setValue_append r [] hnd (by simp [keys])
    simpa using e2
  · rw [mergeParams_snd]
    have hi : r.countP (isIdenticalAttr r) = r.length := by
      rw [List.countP_eq_length]
      intro p hp
      simp [isIdenticalAttr, lookup_eq_of_mem_nodup hnd hp]
    have hu : r.countP (isUpdatedAttr r) = 0 := by
      rw [List.countP_eq_zero]
      intro p hp
      simp [isUpdatedAttr, lookup_eq_of_mem_nodup hnd hp]
    have ha : r.countP (isAdditionalAttr r) = 0 := by
      rw [List.countP_eq_zero]
      intro p hp
      simp [isAdditionalAttr, lookup_eq_of_mem_nodup hnd hp]
    rw [hi, hu, ha]
    obtain ⟨ci, cu, ca, cm, ce⟩ := c
    simp

theorem processFile1_copy (files2 : List Record) (acc : FileAcc) (file : Record)
    (hnd : (keys file).Nodup) (hmem : dictMem file files2 = false) :
    processFile1 files2 acc file =
      ⟨dictInsert acc.files (getName file) file,
       { acc.c with merged := acc.c.merged + 1 }⟩ := by
  unfold processFile1
  rw [hmem]
  simp only [Bool.false_eq_true, if_false]
  rw [copyRecord_eq_self file hnd]

/-! ### Claim C1 -/

/-- C1 counterexample: document A has file `x` with license `MIT`, document
B has file `x` with license `Apache-2.0` — a name match that is not an
exact-equal copy.  The claim requires the record stored under `x` to be the
attribute reconciliation of the two records (license `MIT`, first operand
wins), but the code never reconciles them: the A pass copies A's record
verbatim with `merged += 1`, the B pass overwrites it with B's record
verbatim with another `merged += 1`, so the final record under `x` carries
license `Apache-2.0` and differs from the reconciliation (computed in the
third conjunct). -/
theorem C1_counterexample :
    (mergeFiles [[("name", "x"), ("licenseconcluded", "MIT")]]
        [[("name", "x"), ("licenseconcluded", "Apache-2.0")]] {}).files
      = [("x", [("name", "x"), ("licenseconcluded", "Apache-2.0")])] ∧
    (mergeFiles [[("name", "x"), ("licenseconcluded", "MIT")]]
        [[("name", "x"), ("licenseconcluded", "Apache-2.0")]] {}).c.merged = 2 ∧
    (mergeParams [("name", "x"), ("licenseconcluded", "MIT")]
        [("name", "x"), ("licenseconcluded", "Apache-2.0")] [] {}).1
      = [("name", "x"), ("licenseconcluded", "MIT")] := by decide

/-- C1 (amended): in the A pass of the file set merger, the branching is on
the presence of an exact-equal copy, not on a name match.  If no exact-equal
copy of `f` exists in B — even when a same-named file exists — `f` is copied
verbatim under its name and the merged counter is incremented once.  If an
exact-equal copy exists, the merged counter is not incremented (and no error
is reported); in particular when that copy is B's only file named `f.name`,
`f` is stored unchanged (a duplicate no-op) and only the unchanged counter
moves, once per attribute. -/
theorem C1_file_merge_amended (files2 : List Record) (acc : FileAcc)
    (file : Record) (hnd : (keys file).Nodup) :
    (dictMem file files2 = false →
       processFile1 files2 acc file =
         ⟨dictInsert acc.files (getName file) file,
          { acc.c with merged := acc.c.merged + 1 }⟩) ∧
    (dictMem file files2 = true →
       (processFile1 files2 acc file).c.merged = acc.c.merged ∧
       (processFile1 files2 acc file).c.errors = acc.c.errors) ∧
    (nameMatches files2 (getName file) = [file] →
       processFile1 files2 acc file =
         ⟨dictInsert acc.files (getName file) file,
          { acc.c with identical := acc.c.identical + file.length }⟩) := by
  refine ⟨fun hmem => processFile1_copy files2 acc file hnd hmem, fun hmem => ?_,
    fun h => ?_⟩
  · unfold processFile1
    rw [hmem]
    simp only [if_true]
    rw [fileFold_eq]
    exact reconcileRun_merged_errors file _ [] acc.c
  · have hmemf : file ∈ files2 := by
      have h0 : file ∈ nameMatches files2 (getName file) := by rw [h]; simp
      exact (List.mem_filter.mp h0).1
    have hmem : dictMem file files2 = true :=
      dictMem_iff.mpr ⟨file, hmemf, recordEq_refl hnd⟩
    unfold processFile1
    rw [hmem]
    simp only [if_true]
    rw [fileFold_eq, h]
    have hrun : reconcileRun file ([], acc.c) [file] =
        (file, { acc.c with identical := acc.c.identical + file.length }) := by
      have e : reconcileRun file ([], acc.c) [file] =
          mergeParams file file [] acc.c := rfl
      rw [e, mergeParams_self file acc.c hnd]
    rw [hrun]

/-- Witness for C1: a unique file is copied verbatim with `merged = 1`, and
a file whose exact copy is B's only same-named file is stored unchanged with
only the unchanged counter moving. -/
theorem C1_file_merge_amended_witness :
    processFile1 [] ⟨[], {}⟩ [("name", "x")] =
      ⟨[("x", [("name", "x")])], { merged := 1 }⟩ ∧
    processFile1 [[("name", "x"), ("version", "1")]] ⟨[], {}⟩
        [("name", "x"), ("version", "1")] =
      ⟨[("x", [("name", "x"), ("version", "1")])], { identical := 2 }⟩ := by
  constructor
  · exact ((C1_file_merge_amended [] ⟨[], {}⟩ [("name", "x")]
      (by decide)).1 (by decide)).trans (by decide)
  · exact ((C1_file_merge_amended [[("name", "x"), ("version", "1")]] ⟨[], {}⟩
      [("name", "x"), ("version", "1")] (by decide)).2.2 (by decide)).trans (by decide)

/-! ### Claim C2 -/

/-- C2: for matched records `r1` (from document A) and `r2` (from document B)
and any attribute present in both with differing values, the reconciled
record holds `r2`'s value when `r1`'s value is the sentinel `"NOASSERTION"`
and `r1`'s value otherwise (the policy is asymmetric and first-operand
biased), and the `updated` counter is incremented exactly once per such
attribute: its total increment is the number of common differing attributes,
of which this attribute is one. -/
theorem C2_noassertion_policy (r1 r2 : Record) (c : Counters) (k v1 v2 : String)
    (h1 : (keys r1).Nodup) (h2 : (keys r2).Nodup)
    (hk1 : r1.lookup k = some v1) (hk2 : r2.lookup k = some v2)
    (hne : v1 ≠ v2) :
    (mergeParams r1 r2 [] c).1.lookup k
        = some (if v1 = "NOASSERTION" then v2 else v1) ∧
    (mergeParams r1 r2 [] c).2.updated
        = c.updated + r1.countP (isUpdatedAttr r2) ∧
    1 ≤ r1.countP (isUpdatedAttr r2) := by
  refine ⟨?_, ?_, ?_⟩
  · rw [lookup_mergeParams r1 r2 [] c k h1 h2]
    simp only [mergedValue, hk1, hk2, polVal, Option.or_some]
    by_cases hN : v1 = "NOASSERTION" <;> simp [hN]
  · rw [mergeParams_snd]
  · have hmem : (k, v1) ∈ r1 := mem_of_lookup_eq_some hk1
    have hp : isUpdatedAttr r2 (k, v1) = true := by
      simp [isUpdatedAttr, hk2, bne, hne]
    exact Nat.one_le_iff_ne_zero.mpr
      (Nat.pos_iff_ne_zero.mp (List.countP_pos_iff.mpr ⟨(k, v1), hmem, hp⟩))

/-- Witness for C2 at the spec's own example: `licensedeclared` is
`NOASSERTION` in A and `MIT` in B, and the merged value is `MIT`. -/
theorem C2_noassertion_policy_witness :
    (mergeParams [("name", "a"), ("licensedeclared", "NOASSERTION")]
        [("name", "a"), ("licensedeclared", "MIT")] [] {}).1.lookup "licensedeclared"
      = some "MIT" := by
  have h := (C2_noassertion_policy
    [("name", "a"), ("licensedeclared", "NOASSERTION")]
    [("name", "a"), ("licensedeclared", "MIT")] {}
    "licensedeclared" "NOASSERTION" "MIT"
    (by decide) (by decide) (by decide) (by decide) (by decide)).1
  simpa using h

/-! ### Claim C4 -/

/-- C4: for matched records `r1` and `r2`, the reconciled record's attribute
set is the union of the two attribute sets: an attribute is present in the
merged record exactly when it is present in `r1` or in `r2`, so no attribute
is ever dropped. -/
theorem C4_union_completeness (r1 r2 : Record) (c : Counters) (k : String) :
    hasKey (mergeParams r1 r2 [] c).1 k = (hasKey r1 k || hasKey r2 k) := by
  rw [hasKey_mergeParams]
  simp [hasKey]

/-! ### Claim C3 -/

/-- C3 counterexample: the spec's own test pair — package `libfoo` version
`1.0` in A and `libfoo` version `2.0` in B.  The versions mismatch (third
conjunct), yet no error is reported (`errors = 0`): because A's package has
no exact-equal copy in B, the version guard is never reached; both packages
are copied verbatim under their own `(name, version)` keys. -/
theorem C3_counterexample :
    (mergePackages [[("name", "libfoo"), ("version", "1.0")]]
        [[("name", "libfoo"), ("version", "2.0")]] ⟨[], {}⟩).c.errors = 0 ∧
    (mergePackages [[("name", "libfoo"), ("version", "1.0")]]
        [[("name", "libfoo"), ("version", "2.0")]] ⟨[], {}⟩).pkgs
      = [(("libfoo", some "1.0"), [("name", "libfoo"), ("version", "1.0")]),
         (("libfoo", some "2.0"), [("name", "libfoo"), ("version", "2.0")])] ∧
    versionMismatch [("name", "libfoo"), ("version", "1.0")]
        [("name", "libfoo"), ("version", "2.0")] = true := by decide

theorem processPackage1_merge_form (packages2 : List Record) (acc : PkgAcc)
    (package : Record) (hmem : dictMem package packages2 = true) :
    processPackage1 packages2 acc package =
      ⟨dictInsert acc.pkgs
         (getName (reconcileRun package ([], acc.c)
             ((nameMatches packages2 (getName package)).filter
               (fun q => !versionMismatch package q))).1,
          (reconcileRun package ([], acc.c)
             ((nameMatches packages2 (getName package)).filter
               (fun q => !versionMismatch package q))).1.lookup "version")
         (reconcileRun package ([], acc.c)
            ((nameMatches packages2 (getName package)).filter
              (fun q => !versionMismatch package q))).1,
       { (reconcileRun package ([], acc.c)
            ((nameMatches packages2 (getName package)).filter
              (fun q => !versionMismatch package q))).2 with
         errors :=
           (reconcileRun package ([], acc.c)
              ((nameMatches packages2 (getName package)).filter
                (fun q => !versionMismatch package q))).2.errors
             + (nameMatches packages2 (getName package)).countP
                 (fun q => versionMismatch package q) }⟩ := by
  unfold processPackage1
  rw [hmem]
  simp only [if_true]
  rw [pkgFold_eq, pkgInner_spec]

/-- C3 (amended): the version guard fires only when the A package has an
exact-equal copy in B.  Without such a copy the A package is copied verbatim
and counted as merged, with no error reported, even when a same-named B
package carries a differing version.  With such a copy, every same-named B
package with a mismatching version is reported as one error and excluded
from attribute reconciliation: the stored record reconciles the A package
against only the name matches that pass the version guard. -/
theorem C3_version_guard_amended (packages2 : List Record) (acc : PkgAcc)
    (package : Record) (hnd : (keys package).Nodup) :
    (dictMem package packages2 = false →
       processPackage1 packages2 acc package =
         ⟨dictInsert acc.pkgs (getName package, package.lookup "version") package,
          { acc.c with merged := acc.c.merged + 1 }⟩) ∧
    (dictMem package packages2 = true →
       processPackage1 packages2 acc package =
         ⟨dictInsert acc.pkgs
            (getName (reconcileRun package ([], acc.c)
                ((nameMatches packages2 (getName package)).filter
                  (fun q => !versionMismatch package q))).1,
             (reconcileRun package ([], acc.c)
                ((nameMatches packages2 (getName package)).filter
                  (fun q => !versionMismatch package q))).1.lookup "version")
            (reconcileRun package ([], acc.c)
               ((nameMatches packages2 (getName package)).filter
                 (fun q => !versionMismatch package q))).1,
          { (reconcileRun package ([], acc.c)
               ((nameMatches packages2 (getName package)).filter
                 (fun q => !versionMismatch package q))).2 with
            errors :=
              (reconcileRun package ([], acc.c)
                 ((nameMatches packages2 (getName package)).filter
                   (fun q => !versionMismatch package q))).2.errors
                + (nameMatches packages2 (getName package)).countP
                    (fun q => versionMismatch package q) }⟩) := by
  constructor
  · intro hmem
    unfold processPackage1
    rw [hmem]
    simp only [Bool.false_eq_true, if_false]
    rw [copyRecord_eq_self package hnd]
  · intro hmem
    exact processPackage1_merge_form packages2 acc package hmem

/-- Witness for C3: the guard-free branch at the spec's `libfoo` pair (no
error, verbatim copy), and the guarded branch when A's package has an exact
copy in B next to a mismatching one (one error, mismatching pair excluded). -/
theorem C3_version_guard_amended_witness :
    processPackage1 [[("name", "libfoo"), ("version", "2.0")]] ⟨[], {}⟩
        [("name", "libfoo"), ("version", "1.0")] =
      ⟨[(("libfoo", some "1.0"), [("name", "libfoo"), ("version", "1.0")])],
       { merged := 1 }⟩ ∧
    processPackage1
        [[("name", "libfoo"), ("version", "1.0")],
         [("name", "libfoo"), ("version", "2.0")]] ⟨[], {}⟩
        [("name", "libfoo"), ("version", "1.0")] =
      ⟨[(("libfoo", some "1.0"), [("name", "libfoo"), ("version", "1.0")])],
       { identical := 2, errors := 1 }⟩ := by
  constructor
  · exact ((C3_version_guard_amended [[("name", "libfoo"), ("version", "2.0")]]
      ⟨[], {}⟩ [("name", "libfoo"), ("version", "1.0")] (by decide)).1
      (by decide)).trans (by decide)
  · exact ((C3_version_guard_amended
      [[("name", "libfoo"), ("version", "1.0")],
       [("name", "libfoo"), ("version", "2.0")]]
      ⟨[], {}⟩ [("name", "libfoo"), ("version", "1.0")] (by decide)).2
      (by decide)).trans (by decide)

/-! ### Claim C9 -/

/-- C9 counterexample: document B holds two files named `x`; the first (an
exact copy of A's record, license `NOASSERTION`) and a second with license
`GPL-2.0`.  If the matcher paired A's file with the first name match, the
stored record would keep `NOASSERTION` (second conjunct computes that
pairing); instead the loop reconciles against every name match in turn and
the stored record carries the last match's license `GPL-2.0`. -/
theorem C9_counterexample :
    (processFile1 [[("name", "x"), ("licensedeclared", "NOASSERTION")],
        [("name", "x"), ("licensedeclared", "GPL-2.0")]] ⟨[], {}⟩
        [("name", "x"), ("licensedeclared", "NOASSERTION")]).files
      = [("x", [("name", "x"), ("licensedeclared", "GPL-2.0")])] ∧
    (mergeParams [("name", "x"), ("licensedeclared", "NOASSERTION")]
        [("name", "x"), ("licensedeclared", "NOASSERTION")] [] {}).1
      = [("name", "x"), ("licensedeclared", "NOASSERTION")] := by decide

theorem reconcileRun_last (r1 : Record) (l : List Record) (c : Counters)
    (hf : WFRecord r1)
    (hl_wf : ∀ q ∈ l, WFRecord q ∧ getName q = getName r1)
    (last : Record) (hl : l.getLast? = some last)
    (k v : String) (hk : r1.lookup k = some v) :
    (reconcileRun r1 ([], c) l).1.lookup k = some (polVal v (last.lookup k)) ∧
    getName (reconcileRun r1 ([], c) l).1 = getName r1 := by
  have hne : l ≠ [] := by
    intro e; rw [e] at hl; simp at hl
  obtain ⟨hne', hlast_eq⟩ := List.mem_getLast?_eq_getLast (x := last)
    (l := l) (by simp [hl])
  have hlast_mem : last ∈ l := by
    rw [hlast_eq]; exact List.getLast_mem hne'
  have hlast_wf : WFRecord last := (hl_wf last hlast_mem).1
  refine ⟨?_, getName_congr (getName_reconcileRun r1 l [] c hf hl_wf hne)⟩
  have hsplit : l = l.dropLast ++ [last] := by
    conv =>
      lhs
      rw [← List.dropLast_append_getLast hne']
    rw [← hlast_eq]
  rw [hsplit]
  have hstep : reconcileRun r1 ([], c) (l.dropLast ++ [last]) =
      mergeParams r1 last (reconcileRun r1 ([], c) l.dropLast).1
        (reconcileRun r1 ([], c) l.dropLast).2 := by
    unfold reconcileRun
    rw [List.foldl_append]
    rfl
  rw [hstep, lookup_mergeParams r1 last _ _ k hf.2 hlast_wf.2]
  simp [mergedValue, hk]

/-- C9 (amended): when document B contains several entities bearing `a`'s
name (and the reconcile path is taken, i.e. an exact copy of `a` is in B),
the code pairs `a` against each of them in iteration order rather than
picking one.  For files, the value stored for every attribute of `a` is the
pair reconciliation of `a` with the last same-named file in B's iteration
order; for packages, with the last same-named package of B that passes the
version guard (version-mismatched same-named packages are skipped with an
error, never reconciled).  In neither merger is the first name match the
effective pick. -/
theorem C9_last_match_reconciliation :
    (∀ (files2 : List Record) (acc : FileAcc) (file last : Record),
      WFRecord file → (∀ g ∈ files2, WFRecord g) →
      dictMem file files2 = true →
      (nameMatches files2 (getName file)).getLast? = some last →
      ∀ k v : String, file.lookup k = some v →
      ∃ sb, (processFile1 files2 acc file).files.lookup (getName file) = some sb ∧
        sb.lookup k = some (polVal v (last.lookup k))) ∧
    (∀ (packages2 : List Record) (acc : PkgAcc) (package last : Record),
      WFRecord package → (∀ q ∈ packages2, WFRecord q) →
      dictMem package packages2 = true →
      ((nameMatches packages2 (getName package)).filter
        (fun q => !versionMismatch package q)).getLast? = some last →
      ∀ k v : String, package.lookup k = some v →
      ∃ key sb,
        (processPackage1 packages2 acc package).pkgs.lookup key = some sb ∧
        key.1 = getName package ∧
        sb.lookup k = some (polVal v (last.lookup k))) := by
  constructor
  · intro files2 acc file last hf h2 hmem hl k v hk
    have hwfm : ∀ q ∈ nameMatches files2 (getName file),
        WFRecord q ∧ getName q = getName file := by
      intro q hq
      have hq2 := List.mem_filter.mp hq
      exact ⟨h2 q hq2.1, by simpa using hq2.2⟩
    have hrl := reconcileRun_last file (nameMatches files2 (getName file))
      acc.c hf hwfm last hl k v hk
    unfold processFile1
    rw [hmem]
    simp only [if_true]
    rw [fileFold_eq]
    refine ⟨(reconcileRun file ([], acc.c)
        (nameMatches files2 (getName file))).1, ?_, hrl.1⟩
    show (dictInsert acc.files _ _).lookup (getName file) = _
    rw [hrl.2, lookup_dictInsert]
    simp
  · intro packages2 acc package last hf h2 hmem hl k v hk
    have hwfm : ∀ q ∈ (nameMatches packages2 (getName package)).filter
        (fun q => !versionMismatch package q),
        WFRecord q ∧ getName q = getName package := by
      intro q hq
      have hq2 := List.mem_filter.mp (List.mem_filter.mp hq).1
      exact ⟨h2 q hq2.1, by simpa using hq2.2⟩
    have hrl := reconcileRun_last package
      ((nameMatches packages2 (getName package)).filter
        (fun q => !versionMismatch package q))
      acc.c hf hwfm last hl k v hk
    rw [processPackage1_merge_form packages2 acc package hmem]
    refine ⟨(getName (reconcileRun package ([], acc.c)
          ((nameMatches packages2 (getName package)).filter
            (fun q => !versionMismatch package q))).1,
        (reconcileRun package ([], acc.c)
          ((nameMatches packages2 (getName package)).filter
            (fun q => !versionMismatch package q))).1.lookup "version"),
      (reconcileRun package ([], acc.c)
        ((nameMatches packages2 (getName package)).filter
          (fun q => !versionMismatch package q))).1, ?_, hrl.2, hrl.1⟩
    rw [lookup_dictInsert]
    simp

/-- Witness for C9 on both mergers: the file case at the counterexample's
input stores the reconciliation with the last same-named file (`GPL-2.0`);
the package case stores the reconciliation with the last guard-passing
same-named package (`MIT` when the second `p` shares the version, but
`NOASSERTION` when the second `p` carries version `2` and is skipped by the
guard). -/
theorem C9_last_match_reconciliation_witness :
    (∃ sb, (processFile1 [[("name", "x"), ("licensedeclared", "NOASSERTION")],
        [("name", "x"), ("licensedeclared", "GPL-2.0")]] ⟨[], {}⟩
        [("name", "x"), ("licensedeclared", "NOASSERTION")]).files.lookup "x"
      = some sb ∧ sb.lookup "licensedeclared" = some "GPL-2.0") ∧
    (∃ key sb, (processPackage1
        [[("name", "p"), ("version", "1"), ("licensedeclared", "NOASSERTION")],
         [("name", "p"), ("version", "1"), ("licensedeclared", "MIT")]] ⟨[], {}⟩
        [("name", "p"), ("version", "1"),
         ("licensedeclared", "NOASSERTION")]).pkgs.lookup key = some sb ∧
      key.1 = "p" ∧ sb.lookup "licensedeclared" = some "MIT") ∧
    (∃ key sb, (processPackage1
        [[("name", "p"), ("version", "1"), ("licensedeclared", "NOASSERTION")],
         [("name", "p"), ("version", "2"), ("licensedeclared", "MIT")]] ⟨[], {}⟩
        [("name", "p"), ("version", "1"),
         ("licensedeclared", "NOASSERTION")]).pkgs.lookup key = some sb ∧
      key.1 = "p" ∧ sb.lookup "licensedeclared" = some "NOASSERTION") := by
  refine ⟨?_, ?_, ?_⟩
  · obtain ⟨sb, h1, h2⟩ := C9_last_match_reconciliation.1
      [[("name", "x"), ("licensedeclared", "NOASSERTION")],
       [("name", "x"), ("licensedeclared", "GPL-2.0")]] ⟨[], {}⟩
      [("name", "x"), ("licensedeclared", "NOASSERTION")]
      [("name", "x"), ("licensedeclared", "GPL-2.0")]
      (by decide) (by decide) (by decide) (by decide)
      "licensedeclared" "NOASSERTION" (by decide)
    exact ⟨sb, h1, h2.trans (by decide)⟩
  · obtain ⟨key, sb, h1, h2, h3⟩ := C9_last_match_reconciliation.2
      [[("name", "p"), ("version", "1"), ("licensedeclared", "NOASSERTION")],
       [("name", "p"), ("version", "1"), ("licensedeclared", "MIT")]] ⟨[], {}⟩
      [("name", "p"), ("version", "1"), ("licensedeclared", "NOASSERTION")]
      [("name", "p"), ("version", "1"), ("licensedeclared", "MIT")]
      (by decide) (by decide) (by decide) (by decide)
      "licensedeclared" "NOASSERTION" (by decide)
    exact ⟨key, sb, h1, h2.trans (by decide), h3.trans (by decide)⟩
  · obtain ⟨key, sb, h1, h2, h3⟩ := C9_last_match_reconciliation.2
      [[("name", "p"), ("version", "1"), ("licensedeclared", "NOASSERTION")],
       [("name", "p"), ("version", "2"), ("licensedeclared", "MIT")]] ⟨[], {}⟩
      [("name", "p"), ("version", "1"), ("licensedeclared", "NOASSERTION")]
      [("name", "p"), ("version", "1"), ("licensedeclared", "NOASSERTION")]
      (by decide) (by decide) (by decide) (by decide)
      "licensedeclared" "NOASSERTION" (by decide)
    exact ⟨key, sb, h1, h2.trans (by decide), h3.trans (by decide)⟩

/-! ### Relationship rebuild characterization -/

theorem any_congr_mem {α : Type} {l : List α} {p q : α → Bool}
    (h : ∀ x ∈ l, p x = q x) : l.any p = l.any q := by
  induction l with
  | nil => rfl
  | cons x rest ih =>
      rw [List.any_cons, List.any_cons, h x (by simp),
        ih (fun y hy => h y (List.mem_cons_of_mem x hy))]

theorem resolveFold_file (r : Rel) (fs : List Record) (a : Resolve) :
    fs.foldl (resolveStepFile r) a =
      ⟨if fs.any (fun f => getName f == r.source) then some r.source else a.source,
       if fs.any (fun f => !(getName f == r.source) && (getName f == r.target))
         then some r.target else a.target,
       if fs.any (fun f => getName f == r.source) then "file" else a.sourceType,
       if fs.any (fun f => !(getName f == r.source) && (getName f == r.target))
         then "file" else a.targetType⟩ := by
  induction fs generalizing a with
  | nil =>
      simp only [List.foldl_nil, List.any_nil, Bool.false_eq_true, if_false]
  | cons f rest ih =>
      rw [List.foldl_cons, ih, List.any_cons, List.any_cons]
      by_cases h1 : getName f == r.source
      · have h1e : getName f = r.source := by simpa using h1
        simp [resolveStepFile, h1, h1e, ite_self]
      · have h1' : (getName f == r.source) = false := by simpa using h1
        by_cases h2 : getName f == r.target
        · have h2e : getName f = r.target := by simpa using h2
          have h1p : ¬(r.target = r.source) := by
            intro e
            rw [h2e] at h1
            exact h1 (by simp [e])
          simp [resolveStepFile, h1', h2, h2e, h1p, ite_self]
        · have h2' : (getName f == r.target) = false := by simpa using h2
          simp [resolveStepFile, h1', h2']

theorem resolveFold_pkg (r : Rel) (ps : List Record) (a : Resolve) :
    ps.foldl (resolveStepPkg r) a =
      ⟨if ps.any (fun p => getName p == r.source) then some r.source else a.source,
       if ps.any (fun p => !(getName p == r.source) && (getName p == r.target))
         then some r.target else a.target,
       a.sourceType, a.targetType⟩ := by
  induction ps generalizing a with
  | nil =>
      simp only [List.foldl_nil, List.any_nil, Bool.false_eq_true, if_false]
  | cons p rest ih =>
      rw [List.foldl_cons, ih, List.any_cons, List.any_cons]
      by_cases h1 : getName p == r.source
      · have h1e : getName p = r.source := by simpa using h1
        simp [resolveStepPkg, h1, h1e, ite_self]
      · have h1' : (getName p == r.source) = false := by simpa using h1
        by_cases h2 : getName p == r.target
        · have h2e : getName p = r.target := by simpa using h2
          have h1p : ¬(r.target = r.source) := by
            intro e
            rw [h2e] at h1
            exact h1 (by simp [e])
          simp [resolveStepPkg, h1', h2, h2e, h1p, ite_self]
        · have h2' : (getName p == r.target) = false := by simpa using h2
          simp [resolveStepPkg, h1', h2']

theorem anyStrict_eq (l : List Record) (r : Rel) :
    l.any (fun e => !(getName e == r.source) && (getName e == r.target)) =
      (l.any (fun e => getName e == r.target) && (r.source != r.target)) := by
  by_cases hst : r.source = r.target
  · have hz : l.any (fun e => !(getName e == r.source) && (getName e == r.target))
        = false := by
      rw [List.any_eq_false]
      intro e he
      rw [hst]
      cases h : getName e == r.target <;> simp [h]
    rw [hz, hst]
    simp
  · have hne : (r.source != r.target) = true := by simpa [bne] using hst
    rw [hne, Bool.and_true]
    apply any_congr_mem
    intro e he
    cases h : getName e == r.target
    · simp [h]
    · have he2 : getName e = r.target := by simpa using h
      have hs : (getName e == r.source) = false := by
        simp [he2]
        exact fun e2 => hst e2.symm
      simp [h, hs]

theorem rebuildRel_spec (fs ps : List Record) (r : Rel) :
    rebuildRel fs ps r =
      (if resolvesName fs ps r.source && resolvesName fs ps r.target
          && (r.source != r.target)
       then some ⟨r.source, r.rtype, r.target,
         some (if fs.any (fun e => getName e == r.source) then "file" else "package"),
         some (if fs.any (fun e => getName e == r.target) then "file" else "package")⟩
       else none) := by
  simp only [rebuildRel, resolveFold_file, resolveFold_pkg]
  unfold resolvesName
  by_cases hst : r.source = r.target
  · have h1 : ∀ l : List Record,
        l.any (fun e => !(getName e == r.source) && (getName e == r.target)) = false := by
      intro l
      rw [anyStrict_eq]
      simp [bne, hst]
    rw [h1 fs, h1 ps]
    have hne : (r.source != r.target) = false := by simp [bne, hst]
    rw [hne]
    simp only [Bool.false_eq_true, if_false, Bool.and_false]
    by_cases h2 : fs.any (fun f => getName f == r.source) <;>
      by_cases h3 : ps.any (fun p => getName p == r.source) <;>
        simp [h2, h3]
  · have hne : (r.source != r.target) = true := by simpa [bne] using hst
    rw [anyStrict_eq, anyStrict_eq, hne]
    simp only [Bool.and_true]
    by_cases h2 : fs.any (fun f => getName f == r.source) <;>
      by_cases h3 : ps.any (fun p => getName p == r.source) <;>
        by_cases h4 : fs.any (fun f => getName f == r.target) <;>
          by_cases h5 : ps.any (fun p => getName p == r.target) <;>
            simp [h2, h3, h4, h5]

/-! ### Claim C5 -/

theorem mem_keys_iff {α β : Type} {m : List (α × β)} {q : α} :
    q ∈ keys m ↔ ∃ e ∈ m, e.1 = q := by
  unfold keys
  exact List.mem_map

theorem processPackage1_keys_mono (packages2 : List Record) (acc : PkgAcc)
    (package : Record) (q : PkgKey) (hq : q ∈ keys acc.pkgs) :
    q ∈ keys (processPackage1 packages2 acc package).pkgs := by
  unfold processPackage1
  exact keys_dictInsert_mono hq

theorem processPackage2_keys_mono (packages1 : List Record) (acc : PkgAcc)
    (package : Record) (q : PkgKey) (hq : q ∈ keys acc.pkgs) :
    q ∈ keys (processPackage2 packages1 acc package).pkgs := by
  unfold processPackage2
  by_cases h : dictMem package packages1
  · simp only [h, if_true]
    exact hq
  · have h' : dictMem package packages1 = false := by simpa using h
    simp only [h', Bool.false_eq_true, if_false]
    exact keys_dictInsert_mono hq

theorem mergePackages_keys_mono (packages1 packages2 : List Record) (acc : PkgAcc)
    (q : PkgKey) (hq : q ∈ keys acc.pkgs) :
    q ∈ keys (mergePackages packages1 packages2 acc).pkgs := by
  unfold mergePackages
  apply foldl_preserve (fun a : PkgAcc => q ∈ keys a.pkgs) _ _ _ ?_ ?_
  · apply foldl_preserve (fun a : PkgAcc => q ∈ keys a.pkgs) _ _ _ hq ?_
    intro a x _ ha
    exact processPackage1_keys_mono packages2 a x q ha
  · intro a x _ ha
    exact processPackage2_keys_mono packages1 a x q ha

theorem rootKey_mem (f1 f2 : String) (d1 d2 : Document) :
    (rootPackageName f1 f2, (none : Option String)) ∈
      keys (mergeDocuments f1 f2 d1 d2).packages := by
  have h0 : (rootPackageName f1 f2, (none : Option String)) ∈
      keys (dictInsert ([] : List (PkgKey × Record))
        (getName (rootPackage f1 f2), (rootPackage f1 f2).lookup "version")
        (rootPackage f1 f2)) := by
    have e1 : getName (rootPackage f1 f2) = rootPackageName f1 f2 := rfl
    have e2 : (rootPackage f1 f2).lookup "version" = none := rfl
    simp [keys, dictInsert, e1, e2]
  exact mergePackages_keys_mono d1.packages d2.packages _ _ h0

/-- C5: the synthetic `DESCRIBES` edge from the synthetic document-root
identifier to the root package is the first element of the merged
relationship sequence; the rebuilt edges of document 1 then document 2
follow in order; the sequence ends with exactly one `CONTAINS` edge from
the synthetic root package to (the name component of) every entry of the
final merged package mapping, in mapping order; and since the root
package's key always remains in that mapping, the `CONTAINS` block contains
the self-referential edge from the root package to itself. -/
theorem C5_relationship_order (f1 f2 : String) (d1 d2 : Document) :
    (mergeDocuments f1 f2 d1 d2).relationships.head? = some (describesEdge f1 f2) ∧
    (mergeDocuments f1 f2 d1 d2).relationships =
      describesEdge f1 f2 ::
        (rebuiltRels d1.files d1.packages d1.relationships ++
         rebuiltRels d2.files d2.packages d2.relationships ++
         containsEdges (rootPackageName f1 f2)
           (mergeDocuments f1 f2 d1 d2).packages) ∧
    (rootPackageName f1 f2, (none : Option String)) ∈
      keys (mergeDocuments f1 f2 d1 d2).packages ∧
    MergedRel.mk (rootPackageName f1 f2) "CONTAINS" (rootPackageName f1 f2)
        none none ∈ (mergeDocuments f1 f2 d1 d2).relationships := by
  have hkey := rootKey_mem f1 f2 d1 d2
  refine ⟨rfl, rfl, hkey, ?_⟩
  obtain ⟨e, he, hfst⟩ := mem_keys_iff.mp hkey
  have hedge : MergedRel.mk (rootPackageName f1 f2) "CONTAINS"
      (rootPackageName f1 f2) none none ∈
      containsEdges (rootPackageName f1 f2) (mergeDocuments f1 f2 d1 d2).packages := by
    unfold containsEdges
    refine List.mem_map.mpr ⟨e, he, ?_⟩
    show MergedRel.mk (rootPackageName f1 f2) "CONTAINS" e.1.1 none none = _
    rw [hfst]
  have hshape : (mergeDocuments f1 f2 d1 d2).relationships =
      describesEdge f1 f2 ::
        (rebuiltRels d1.files d1.packages d1.relationships ++
         rebuiltRels d2.files d2.packages d2.relationships ++
         containsEdges (rootPackageName f1 f2)
           (mergeDocuments f1 f2 d1 d2).packages) := rfl
  rw [hshape]
  exact List.mem_cons_of_mem _ (List.mem_append_right _ hedge)

/-! ### Merged-collection name coverage (for claim C6) -/

theorem processFile1_keys_mono (files2 : List Record) (acc : FileAcc)
    (file : Record) (q : String) (hq : q ∈ keys acc.files) :
    q ∈ keys (processFile1 files2 acc file).files := by
  unfold processFile1
  exact keys_dictInsert_mono hq

theorem processFile2_keys_mono (files1 : List Record) (acc : FileAcc)
    (file : Record) (q : String) (hq : q ∈ keys acc.files) :
    q ∈ keys (processFile2 files1 acc file).files := by
  unfold processFile2
  by_cases hlen : files1.length > 0
  · simp only [if_pos hlen]
    by_cases hmem : dictMem file files1
    · simp only [hmem, if_true]
      exact hq
    · have hmem' : dictMem file files1 = false := by simpa using hmem
      simp only [hmem', Bool.false_eq_true, if_false]
      exact keys_dictInsert_mono hq
  · simp only [if_neg hlen]
    exact keys_dictInsert_mono hq

theorem processFile1_self (files2 : List Record) (acc : FileAcc) (file : Record)
    (hf : WFRecord file) (h2 : ∀ g ∈ files2, WFRecord g) :
    getName file ∈ keys (processFile1 files2 acc file).files := by
  by_cases hmem : dictMem file files2
  · unfold processFile1
    rw [hmem]
    simp only [if_true]
    rw [fileFold_eq]
    obtain ⟨g, hg, hge⟩ := dictMem_iff.mp hmem
    have hgname : getName g = getName file := getName_eq_of_recordEq hf.1 hge
    have hgmatch : g ∈ nameMatches files2 (getName file) :=
      List.mem_filter.mpr ⟨hg, by simp [hgname]⟩
    have hne : nameMatches files2 (getName file) ≠ [] := List.ne_nil_of_mem hgmatch
    have hwfm : ∀ q ∈ nameMatches files2 (getName file),
        WFRecord q ∧ getName q = getName file := by
      intro q hq
      have hq2 := List.mem_filter.mp hq
      exact ⟨h2 q hq2.1, by simpa using hq2.2⟩
    have hname := getName_reconcileRun file (nameMatches files2 (getName file))
      [] acc.c hf hwfm hne
    have hgn : getName (reconcileRun file ([], acc.c)
        (nameMatches files2 (getName file))).1 = getName file := getName_congr hname
    rw [hgn]
    exact mem_keys_dictInsert.mpr (Or.inl rfl)
  · have hmem' : dictMem file files2 = false := by simpa using hmem
    rw [processFile1_copy files2 acc file hf.2 hmem']
    exact mem_keys_dictInsert.mpr (Or.inl rfl)

theorem foldA_covers (files2 files1 : List Record) (acc : FileAcc)
    (h1 : ∀ f ∈ files1, WFRecord f) (h2 : ∀ g ∈ files2, WFRecord g) :
    ∀ f ∈ files1,
      getName f ∈ keys ((files1.foldl (processFile1 files2) acc).files) := by
  induction files1 generalizing acc with
  | nil => intro f hf; simp at hf
  | cons x rest ih =>
      intro f hf
      rw [List.foldl_cons]
      rcases List.mem_cons.mp hf with rfl | h
      · have hx := processFile1_self files2 acc f (h1 f (by simp)) h2
        apply foldl_preserve (fun a : FileAcc => getName f ∈ keys a.files) _ _ _ hx
        intro a y _ ha
        exact processFile1_keys_mono files2 a y _ ha
      · exact ih (processFile1 files2 acc x) (fun y hy => h1 y (by simp [hy])) f h

theorem foldB_covers (files1 files2 : List Record) (acc : FileAcc)
    (h2 : ∀ g ∈ files2, WFRecord g)
    (hacc : ∀ f ∈ files1, getName f ∈ keys acc.files) :
    ∀ g ∈ files2,
      getName g ∈ keys ((files2.foldl (processFile2 files1) acc).files) := by
  induction files2 generalizing acc with
  | nil => intro g hg; simp at hg
  | cons x rest ih =>
      intro g hg
      rw [List.foldl_cons]
      rcases List.mem_cons.mp hg with rfl | h
      · have hx : getName g ∈ keys (processFile2 files1 acc g).files := by
          unfold processFile2
          by_cases hlen : files1.length > 0
          · simp only [if_pos hlen]
            by_cases hmem : dictMem g files1
            · simp only [hmem, if_true]
              obtain ⟨f', hf', hfe⟩ := dictMem_iff.mp hmem
              have he : getName f' = getName g :=
                getName_eq_of_recordEq (h2 g (by simp)).1 hfe
              rw [← he]
              exact hacc f' hf'
            · have hmem' : dictMem g files1 = false := by simpa using hmem
              simp only [hmem', Bool.false_eq_true, if_false]
              rw [copyRecord_eq_self g (h2 g (by simp)).2]
              exact mem_keys_dictInsert.mpr (Or.inl rfl)
          · simp only [if_neg hlen]
            rw [copyRecord_eq_self g (h2 g (by simp)).2]
            exact mem_keys_dictInsert.mpr (Or.inl rfl)
        apply foldl_preserve (fun a : FileAcc => getName g ∈ keys a.files) _ _ _ hx
        intro a y _ ha
        exact processFile2_keys_mono files1 a y _ ha
      · exact ih (processFile2 files1 acc x) (fun y hy => h2 y (by simp [hy]))
          (fun f' hf' => processFile2_keys_mono files1 acc x _ (hacc f' hf')) g h

theorem mergeFiles_covers (files1 files2 : List Record) (c : Counters)
    (h1 : ∀ f ∈ files1, WFRecord f) (h2 : ∀ g ∈ files2, WFRecord g) :
    (∀ f ∈ files1, getName f ∈ keys (mergeFiles files1 files2 c).files) ∧
    (∀ g ∈ files2, getName g ∈ keys (mergeFiles files1 files2 c).files) := by
  unfold mergeFiles
  constructor
  · intro f hf
    have hA := foldA_covers files2 files1 ⟨[], c⟩ h1 h2 f hf
    apply foldl_preserve (fun a : FileAcc => getName f ∈ keys a.files) _ _ _ hA
    intro a y _ ha
    exact processFile2_keys_mono files1 a y _ ha
  · exact foldB_covers files1 files2 _ h2 (foldA_covers files2 files1 ⟨[], c⟩ h1 h2)

theorem dictInsert_mem_key {α β : Type} [BEq α] [LawfulBEq α]
    (m : List (α × β)) (k : α) (v : β) :
    ∃ e ∈ dictInsert m k v, e.1 = k :=
  mem_keys_iff.mp (mem_keys_dictInsert.mpr (Or.inl rfl))

theorem dictInsert_pkgName_mono {m : List (PkgKey × Record)} {k : PkgKey}
    {v : Record} {n : String} (h : ∃ e ∈ m, e.1.1 = n) :
    ∃ e ∈ dictInsert m k v, e.1.1 = n := by
  induction m with
  | nil =>
      obtain ⟨e, he, _⟩ := h
      simp at he
  | cons p rest ih =>
      obtain ⟨e, he, hen⟩ := h
      by_cases hp : p.1 = k
      · have hp' : (p.1 == k) = true := by simp [hp]
        simp only [dictInsert, hp', if_true]
        rcases List.mem_cons.mp he with rfl | hr
        · exact ⟨(k, v), by simp, by rw [← hp]; exact hen⟩
        · exact ⟨e, by simp [hr], hen⟩
      · have hp' : (p.1 == k) = false := by simp [hp]
        simp only [dictInsert, hp', Bool.false_eq_true, if_false]
        rcases List.mem_cons.mp he with rfl | hr
        · exact ⟨e, by simp, hen⟩
        · obtain ⟨e2, he2, hen2⟩ := ih ⟨e, hr, hen⟩
          exact ⟨e2, by simp [he2], hen2⟩

theorem processPackage1_name_mono (packages2 : List Record) (acc : PkgAcc)
    (package : Record) (n : String) (hq : ∃ e ∈ acc.pkgs, e.1.1 = n) :
    ∃ e ∈ (processPackage1 packages2 acc package).pkgs, e.1.1 = n := by
  unfold processPackage1
  exact dictInsert_pkgName_mono hq

theorem processPackage2_name_mono (packages1 : List Record) (acc : PkgAcc)
    (package : Record) (n : String) (hq : ∃ e ∈ acc.pkgs, e.1.1 = n) :
    ∃ e ∈ (processPackage2 packages1 acc package).pkgs, e.1.1 = n := by
  unfold processPackage2
  by_cases h : dictMem package packages1
  · simp only [h, if_true]
    exact hq
  · have h' : dictMem package packages1 = false := by simpa using h
    simp only [h', Bool.false_eq_true, if_false]
    exact dictInsert_pkgName_mono hq

theorem processPackage1_self (packages2 : List Record) (acc : PkgAcc)
    (package : Record) (hf : WFRecord package)
    (h2 : ∀ q ∈ packages2, WFRecord q) :
    ∃ e ∈ (processPackage1 packages2 acc package).pkgs,
      e.1.1 = getName package := by
  by_cases hmem : dictMem package packages2
  · unfold processPackage1
    rw [hmem]
    simp only [if_true]
    rw [pkgFold_eq, pkgInner_spec]
    simp only
    obtain ⟨g, hg, hge⟩ := dictMem_iff.mp hmem
    have hgname : getName g = getName package := getName_eq_of_recordEq hf.1 hge
    have hgmatch : g ∈ nameMatches packages2 (getName package) :=
      List.mem_filter.mpr ⟨hg, by simp [hgname]⟩
    have hggood : g ∈ (nameMatches packages2 (getName package)).filter
        (fun q => !versionMismatch package q) :=
      List.mem_filter.mpr ⟨hgmatch, by simp [versionMismatch_of_recordEq hge]⟩
    have hne : (nameMatches packages2 (getName package)).filter
        (fun q => !versionMismatch package q) ≠ [] := List.ne_nil_of_mem hggood
    have hwfm : ∀ q ∈ (nameMatches packages2 (getName package)).filter
        (fun q => !versionMismatch package q),
        WFRecord q ∧ getName q = getName package := by
      intro q hq
      have hq2 := List.mem_filter.mp (List.mem_filter.mp hq).1
      exact ⟨h2 q hq2.1, by simpa using hq2.2⟩
    have hname := getName_reconcileRun package
      ((nameMatches packages2 (getName package)).filter
        (fun q => !versionMismatch package q)) [] acc.c hf hwfm hne
    have hgn : getName (reconcileRun package ([], acc.c)
        ((nameMatches packages2 (getName package)).filter
          (fun q => !versionMismatch package q))).1 = getName package :=
      getName_congr hname
    obtain ⟨e, he, hek⟩ := dictInsert_mem_key acc.pkgs
      (getName (reconcileRun package ([], acc.c)
          ((nameMatches packages2 (getName package)).filter
            (fun q => !versionMismatch package q))).1,
        (reconcileRun package ([], acc.c)
          ((nameMatches packages2 (getName package)).filter
            (fun q => !versionMismatch package q))).1.lookup "version")
      (reconcileRun package ([], acc.c)
        ((nameMatches packages2 (getName package)).filter
          (fun q => !versionMismatch package q))).1
    refine ⟨e, he, ?_⟩
    rw [hek]
    exact hgn
  · have hmem' : dictMem package packages2 = false := by simpa using hmem
    unfold processPackage1
    rw [hmem']
    simp only [Bool.false_eq_true, if_false]
    rw [copyRecord_eq_self package hf.2]
    obtain ⟨e, he, hek⟩ := dictInsert_mem_key acc.pkgs
      (getName package, package.lookup "version") package
    refine ⟨e, he, ?_⟩
    rw [hek]

theorem foldA_pkg_covers (packages2 packages1 : List Record) (acc : PkgAcc)
    (h1 : ∀ p ∈ packages1, WFRecord p) (h2 : ∀ q ∈ packages2, WFRecord q) :
    ∀ p ∈ packages1,
      ∃ e ∈ ((packages1.foldl (processPackage1 packages2) acc).pkgs),
        e.1.1 = getName p := by
  induction packages1 generalizing acc with
  | nil => intro p hp; simp at hp
  | cons x rest ih =>
      intro p hp
      rw [List.foldl_cons]
      rcases List.mem_cons.mp hp with rfl | h
      · have hx := processPackage1_self packages2 acc p (h1 p (by simp)) h2
        apply foldl_preserve
          (fun a : PkgAcc => ∃ e ∈ a.pkgs, e.1.1 = getName p) _ _ _ hx
        intro a y _ ha
        exact processPackage1_name_mono packages2 a y _ ha
      · exact ih (processPackage1 packages2 acc x)
          (fun y hy => h1 y (by simp [hy])) p h

theorem foldB_pkg_covers (packages1 packages2 : List Record) (acc : PkgAcc)
    (h2 : ∀ q ∈ packages2, WFRecord q)
    (hacc : ∀ p ∈ packages1, ∃ e ∈ acc.pkgs, e.1.1 = getName p) :
    ∀ q ∈ packages2,
      ∃ e ∈ ((packages2.foldl (processPackage2 packages1) acc).pkgs),
        e.1.1 = getName q := by
  induction packages2 generalizing acc with
  | nil => intro q hq; simp at hq
  | cons x rest ih =>
      intro q hq
      rw [List.foldl_cons]
      rcases List.mem_cons.mp hq with rfl | h
      · have hx : ∃ e ∈ (processPackage2 packages1 acc q).pkgs,
            e.1.1 = getName q := by
          unfold processPackage2
          by_cases hmem : dictMem q packages1
          · simp only [hmem, if_true]
            obtain ⟨p', hp', hpe⟩ := dictMem_iff.mp hmem
            have he : getName p' = getName q :=
              getName_eq_of_recordEq (h2 q (by simp)).1 hpe
            rw [← he]
            exact hacc p' hp'
          · have hmem' : dictMem q packages1 = false := by simpa using hmem
            simp only [hmem', Bool.false_eq_true, if_false]
            rw [copyRecord_eq_self q (h2 q (by simp)).2]
            obtain ⟨e, he, hek⟩ := dictInsert_mem_key acc.pkgs
              (getName q, q.lookup "version") q
            exact ⟨e, he, by rw [hek]⟩
        apply foldl_preserve
          (fun a : PkgAcc => ∃ e ∈ a.pkgs, e.1.1 = getName q) _ _ _ hx
        intro a y _ ha
        exact processPackage2_name_mono packages1 a y _ ha
      · exact ih (processPackage2 packages1 acc x)
          (fun y hy => h2 y (by simp [hy]))
          (fun p' hp' => processPackage2_name_mono packages1 acc x _ (hacc p' hp'))
          q h

theorem mergePackages_covers (packages1 packages2 : List Record) (acc : PkgAcc)
    (h1 : ∀ p ∈ packages1, WFRecord p) (h2 : ∀ q ∈ packages2, WFRecord q) :
    (∀ p ∈ packages1,
      ∃ e ∈ (mergePackages packages1 packages2 acc).pkgs, e.1.1 = getName p) ∧
    (∀ q ∈ packages2,
      ∃ e ∈ (mergePackages packages1 packages2 acc).pkgs, e.1.1 = getName q) := by
  unfold mergePackages
  constructor
  · intro p hp
    have hA := foldA_pkg_covers packages2 packages1 acc h1 h2 p hp
    apply foldl_preserve
      (fun a : PkgAcc => ∃ e ∈ a.pkgs, e.1.1 = getName p) _ _ _ hA
    intro a y _ ha
    exact processPackage2_name_mono packages1 a y _ ha
  · exact foldB_pkg_covers packages1 packages2 _ h2
      (foldA_pkg_covers packages2 packages1 acc h1 h2)

/-! ### Claim C6 -/

theorem okEndpoint_of_resolves1 (f1 f2 : String) (d1 d2 : Document)
    (h1 : WFDoc d1) (h2 : WFDoc d2) (n : String)
    (h : resolvesName d1.files d1.packages n = true) :
    okEndpoint (mergeDocuments f1 f2 d1 d2) (rootPackageName f1 f2)
      (parentName f1 f2) n := by
  unfold resolvesName at h
  rw [Bool.or_eq_true] at h
  rcases h with hf | hp
  · obtain ⟨ff, hff, he⟩ := List.any_eq_true.mp hf
    have he2 : getName ff = n := by simpa using he
    left
    rw [← he2]
    exact (mergeFiles_covers d1.files d2.files {} h1.1 h2.1).1 ff hff
  · obtain ⟨pp, hpp, he⟩ := List.any_eq_true.mp hp
    have he2 : getName pp = n := by simpa using he
    right; left
    rw [← he2]
    exact (mergePackages_covers d1.packages d2.packages
      ⟨dictInsert [] (getName (rootPackage f1 f2),
          (rootPackage f1 f2).lookup "version") (rootPackage f1 f2),
        (mergeFiles d1.files d2.files {}).c⟩ h1.2 h2.2).1 pp hpp

theorem okEndpoint_of_resolves2 (f1 f2 : String) (d1 d2 : Document)
    (h1 : WFDoc d1) (h2 : WFDoc d2) (n : String)
    (h : resolvesName d2.files d2.packages n = true) :
    okEndpoint (mergeDocuments f1 f2 d1 d2) (rootPackageName f1 f2)
      (parentName f1 f2) n := by
  unfold resolvesName at h
  rw [Bool.or_eq_true] at h
  rcases h with hf | hp
  · obtain ⟨ff, hff, he⟩ := List.any_eq_true.mp hf
    have he2 : getName ff = n := by simpa using he
    left
    rw [← he2]
    exact (mergeFiles_covers d1.files d2.files {} h1.1 h2.1).2 ff hff
  · obtain ⟨pp, hpp, he⟩ := List.any_eq_true.mp hp
    have he2 : getName pp = n := by simpa using he
    right; left
    rw [← he2]
    exact (mergePackages_covers d1.packages d2.packages
      ⟨dictInsert [] (getName (rootPackage f1 f2),
          (rootPackage f1 f2).lookup "version") (rootPackage f1 f2),
        (mergeFiles d1.files d2.files {}).c⟩ h1.2 h2.2).2 pp hpp

theorem rebuilt_endpoints_ok (fs ps : List Record) (rels : List Rel)
    (r : MergedRel) (hr : r ∈ rebuiltRels fs ps rels) :
    resolvesName fs ps r.source = true ∧ resolvesName fs ps r.target = true := by
  obtain ⟨rel, _, hsome⟩ := List.mem_filterMap.mp hr
  rw [rebuildRel_spec] at hsome
  by_cases hcond : (resolvesName fs ps rel.source && resolvesName fs ps rel.target
      && (rel.source != rel.target)) = true
  · rw [if_pos hcond] at hsome
    have hre := Option.some.inj hsome
    simp only [Bool.and_eq_true] at hcond
    rw [← hre]
    exact ⟨hcond.1.1, hcond.1.2⟩
  · rw [if_neg hcond] at hsome
    exact absurd hsome (by simp)

/-- C6 counterexample: the first relationship of any merge is the synthetic
`DESCRIBES` edge, whose source `SBOM-MERGETOOL-a-b` is the synthetic
document-root identifier: it names no merged file, names no merged package,
and is not the synthetic root package, so the claim's invariant fails on
it. -/
theorem C6_counterexample :
    (mergeDocuments "a" "b" ⟨[], [], []⟩ ⟨[], [], []⟩).relationships.head? =
      some ⟨"SBOM-MERGETOOL-a-b", "DESCRIBES", "MERGETOOL-a-b", none, none⟩ ∧
    ¬("SBOM-MERGETOOL-a-b" ∈
        (mergeDocuments "a" "b" ⟨[], [], []⟩ ⟨[], [], []⟩).files.map Prod.fst ∨
      (∃ e ∈ (mergeDocuments "a" "b" ⟨[], [], []⟩ ⟨[], [], []⟩).packages,
        e.1.1 = "SBOM-MERGETOOL-a-b") ∨
      "SBOM-MERGETOOL-a-b" = rootPackageName "a" "b") := by decide

/-- C6 (amended): every relationship endpoint in the merged document names
an entity present in the merged files mapping or the merged packages
mapping, or is the synthetic root package, or is the synthetic
document-root identifier (the `DESCRIBES` edge's source, which the original
claim omitted). -/
theorem C6_endpoints_amended (f1 f2 : String) (d1 d2 : Document)
    (h1 : WFDoc d1) (h2 : WFDoc d2) :
    ∀ r ∈ (mergeDocuments f1 f2 d1 d2).relationships,
      okEndpoint (mergeDocuments f1 f2 d1 d2) (rootPackageName f1 f2)
        (parentName f1 f2) r.source ∧
      okEndpoint (mergeDocuments f1 f2 d1 d2) (rootPackageName f1 f2)
        (parentName f1 f2) r.target := by
  intro r hr
  have hshape : (mergeDocuments f1 f2 d1 d2).relationships =
      describesEdge f1 f2 ::
        (rebuiltRels d1.files d1.packages d1.relationships ++
         rebuiltRels d2.files d2.packages d2.relationships ++
         containsEdges (rootPackageName f1 f2)
           (mergeDocuments f1 f2 d1 d2).packages) := rfl
  rw [hshape] at hr
  rcases List.mem_cons.mp hr with rfl | hr2
  · exact ⟨Or.inr (Or.inr (Or.inr rfl)), Or.inr (Or.inr (Or.inl rfl))⟩
  rcases List.mem_append.mp hr2 with hr3 | hcon
  · rcases List.mem_append.mp hr3 with hA | hB
    · have hres := rebuilt_endpoints_ok d1.files d1.packages d1.relationships r hA
      exact ⟨okEndpoint_of_resolves1 f1 f2 d1 d2 h1 h2 r.source hres.1,
        okEndpoint_of_resolves1 f1 f2 d1 d2 h1 h2 r.target hres.2⟩
    · have hres := rebuilt_endpoints_ok d2.files d2.packages d2.relationships r hB
      exact ⟨okEndpoint_of_resolves2 f1 f2 d1 d2 h1 h2 r.source hres.1,
        okEndpoint_of_resolves2 f1 f2 d1 d2 h1 h2 r.target hres.2⟩
  · obtain ⟨e, he, hre⟩ := List.mem_map.mp hcon
    rw [← hre]
    exact ⟨Or.inr (Or.inr (Or.inl rfl)), Or.inr (Or.inl ⟨e, he, rfl⟩)⟩

/-- Witness for C6 at a concrete merge with one package in document A: both
endpoints of the `CONTAINS` edge to that package are acceptable. -/
theorem C6_endpoints_amended_witness :
    okEndpoint (mergeDocuments "a" "b"
        ⟨[], [[("name", "p"), ("version", "1")]], []⟩ ⟨[], [], []⟩)
      (rootPackageName "a" "b") (parentName "a" "b") "MERGETOOL-a-b" ∧
    okEndpoint (mergeDocuments "a" "b"
        ⟨[], [[("name", "p"), ("version", "1")]], []⟩ ⟨[], [], []⟩)
      (rootPackageName "a" "b") (parentName "a" "b") "p" := by
  exact C6_endpoints_amended "a" "b"
    ⟨[], [[("name", "p"), ("version", "1")]], []⟩ ⟨[], [], []⟩
    (by decide) (by decide)
    ⟨"MERGETOOL-a-b", "CONTAINS", "p", none, none⟩ (by decide)

/-! ### Claim C10 -/

theorem processFile2_empty (acc : FileAcc) (file : Record) :
    processFile2 [] acc file =
      ⟨dictInsert acc.files (getName (copyRecord file)) (copyRecord file),
       { acc.c with identical := acc.c.identical + 1 }⟩ := rfl

theorem mergeFiles_empty_counters (files2 : List Record) (acc : FileAcc) :
    (files2.foldl (processFile2 []) acc).c =
      { acc.c with identical := acc.c.identical + files2.length } := by
  induction files2 generalizing acc with
  | nil =>
      obtain ⟨fs, ⟨ci, cu, ca, cm, ce⟩⟩ := acc
      simp
  | cons f rest ih =>
      obtain ⟨fs, ⟨ci, cu, ca, cm, ce⟩⟩ := acc
      rw [List.foldl_cons, processFile2_empty, ih]
      simp [Counters.mk.injEq]
      omega

theorem mergeFiles_empty_lookup_preserve (rest : List Record) (acc : FileAcc)
    (q : String) (hq : ∀ f ∈ rest, getName f ≠ q)
    (hw : ∀ f ∈ rest, (keys f).Nodup) :
    (rest.foldl (processFile2 []) acc).files.lookup q = acc.files.lookup q := by
  induction rest generalizing acc with
  | nil => rfl
  | cons f rs ih =>
      rw [List.foldl_cons, processFile2_empty]
      rw [ih _ (fun g hg => hq g (by simp [hg])) (fun g hg => hw g (by simp [hg]))]
      simp only [copyRecord_eq_self f (hw f (by simp))]
      rw [lookup_dictInsert]
      have he : (q == getName f) = false := by
        simp only [beq_eq_false_iff_ne, ne_eq]
        exact fun e => (hq f (by simp)) e.symm
      rw [he]
      simp

theorem mergeFiles_empty_lookup (files2 : List Record) (acc : FileAcc)
    (hw : ∀ f ∈ files2, (keys f).Nodup)
    (hnames : (files2.map getName).Nodup) :
    ∀ f ∈ files2,
      (files2.foldl (processFile2 []) acc).files.lookup (getName f) = some f := by
  induction files2 generalizing acc with
  | nil => intro f hf; simp at hf
  | cons g rest ih =>
      intro f hf
      rw [List.foldl_cons, processFile2_empty, copyRecord_eq_self g (hw g (by simp))]
      rw [List.map_cons, List.nodup_cons] at hnames
      rcases List.mem_cons.mp hf with h | h
      · have hng : ∀ x ∈ rest, getName x ≠ getName f := by
          intro x hx e
          rw [h] at e
          exact hnames.1 (by rw [← e]; exact List.mem_map_of_mem getName hx)
        have hwr : ∀ x ∈ rest, (keys x).Nodup := fun x hx => hw x (by simp [hx])
        rw [mergeFiles_empty_lookup_preserve rest _ (getName f) hng hwr]
        rw [h, lookup_dictInsert]
        simp
      · exact ih _ (fun x hx => hw x (by simp [hx])) hnames.2 f h

/-- C10: when document A has no files, every file of document B is copied
verbatim into the merged file mapping, the unchanged counter is incremented
once per copied file, and the updated, added and merged counters are left
untouched; consequently (with otherwise empty documents) the run signals
"no differences found". -/
theorem C10_empty_A_files (files2 : List Record) (f1 f2 : String)
    (hw : ∀ f ∈ files2, WFRecord f)
    (hnames : (files2.map getName).Nodup)
    (hne : f1 ≠ f2) :
    (mergeFiles [] files2 {}).c =
      { identical := files2.length, updated := 0, additional := 0,
        merged := 0, errors := 0 } ∧
    (∀ f ∈ files2, (mergeFiles [] files2 {}).files.lookup (getName f) = some f) ∧
    runProcess f1 f2 true true ⟨[], [], []⟩ ⟨files2, [], []⟩ = 0 := by
  have e : mergeFiles [] files2 {} = files2.foldl (processFile2 []) ⟨[], {}⟩ := rfl
  have hc : (mergeFiles [] files2 ({} : Counters)).c =
      { identical := files2.length, updated := 0, additional := 0,
        merged := 0, errors := 0 } := by
    rw [e, mergeFiles_empty_counters]
    simp
  refine ⟨hc, ?_, ?_⟩
  · intro f hf
    rw [e]
    exact mergeFiles_empty_lookup files2 ⟨[], {}⟩ (fun x hx => (hw x hx).2)
      hnames f hf
  · unfold runProcess
    have hb : (f1 != f2) = true := by simpa [bne] using hne
    rw [hb]
    simp only [Bool.not_true, Bool.or_self, Bool.false_eq_true, if_false, if_true]
    have e2 : (mergeDocuments f1 f2 ⟨[], [], []⟩ ⟨files2, [], []⟩).counters =
        (mergeFiles [] files2 {}).c := rfl
    rw [e2, hc]
    unfold returnCode pyOr
    simp

/-- Witness for C10 with a single B file: one unchanged, nothing merged,
return code `0`. -/
theorem C10_empty_A_files_witness :
    (mergeFiles [] [[("name", "b1")]] {}).c =
      { identical := 1, updated := 0, additional := 0, merged := 0,
        errors := 0 } ∧
    runProcess "a" "b" true true ⟨[], [], []⟩ ⟨[[("name", "b1")]], [], []⟩ = 0 := by
  have h := C10_empty_A_files [[("name", "b1")]] "a" "b"
    (by decide) (by decide) (by decide)
  exact ⟨h.1.trans (by decide), h.2.2⟩

/-! ### Claim C8 -/

theorem returnCode_spec (c : Counters) :
    (returnCode c = 1 ↔ (c.updated ≠ 0 ∨ c.additional ≠ 0 ∨ c.merged ≠ 0)) ∧
    (returnCode c = 0 ↔ (c.updated = 0 ∧ c.additional = 0 ∧ c.merged = 0)) := by
  unfold returnCode pyOr
  by_cases h1 : c.updated = 0 <;> by_cases h2 : c.additional = 0 <;>
    by_cases h3 : c.merged = 0 <;> simp [h1, h2, h3, bne]

/-- C8: the process outcome is a three-way signal.  Equal input identifiers
yield `-1` whatever the documents hold (the engine's result is irrelevant);
a missing input file also yields `-1`; otherwise, after the merge, the
process returns `1` exactly when one of the `updated`, `additional` (new) or
`merged` counters is nonzero and `0` exactly when all three are zero — the
unchanged counter never enters the condition. -/
theorem C8_process_signal (file1 file2 : String) (e1 e2 : Bool)
    (d1 d2 : Document) :
    (file1 = file2 → runProcess file1 file2 e1 e2 d1 d2 = -1) ∧
    (e1 = false ∨ e2 = false → runProcess file1 file2 e1 e2 d1 d2 = -1) ∧
    (file1 ≠ file2 → e1 = true → e2 = true →
      (runProcess file1 file2 e1 e2 d1 d2 = 1 ↔
        ((mergeDocuments file1 file2 d1 d2).counters.updated ≠ 0 ∨
         (mergeDocuments file1 file2 d1 d2).counters.additional ≠ 0 ∨
         (mergeDocuments file1 file2 d1 d2).counters.merged ≠ 0)) ∧
      (runProcess file1 file2 e1 e2 d1 d2 = 0 ↔
        ((mergeDocuments file1 file2 d1 d2).counters.updated = 0 ∧
         (mergeDocuments file1 file2 d1 d2).counters.additional = 0 ∧
         (mergeDocuments file1 file2 d1 d2).counters.merged = 0))) := by
  refine ⟨fun h => ?_, fun h => ?_, fun hf he1 he2 => ?_⟩
  · unfold runProcess
    simp [bne, h]
  · unfold runProcess
    by_cases hf : file1 = file2
    · simp [bne, hf]
    · rcases h with h | h <;> simp [bne, hf, h]
  · unfold runProcess
    have hb : (file1 != file2) = true := by simpa [bne] using hf
    rw [hb, he1, he2]
    simp only [Bool.not_true, Bool.or_self, Bool.false_eq_true, if_false, if_true]
    exact returnCode_spec (mergeDocuments file1 file2 d1 d2).counters

/-- Witness for C8: the four outcomes at concrete inputs — same identifier,
missing file, a B-only package (differences found), and two empty documents
(no differences). -/
theorem C8_process_signal_witness :
    runProcess "a" "a" true true ⟨[], [], []⟩ ⟨[], [], []⟩ = -1 ∧
    runProcess "a" "b" false true ⟨[], [], []⟩ ⟨[], [], []⟩ = -1 ∧
    runProcess "a" "b" true true ⟨[], [], []⟩
      ⟨[], [[("name", "p"), ("version", "1")]], []⟩ = 1 ∧
    runProcess "a" "b" true true ⟨[], [], []⟩ ⟨[], [], []⟩ = 0 := by
  refine ⟨(C8_process_signal "a" "a" true true ⟨[], [], []⟩ ⟨[], [], []⟩).1 rfl,
    (C8_process_signal "a" "b" false true ⟨[], [], []⟩ ⟨[], [], []⟩).2.1 (Or.inl rfl),
    ((C8_process_signal "a" "b" true true ⟨[], [], []⟩
      ⟨[], [[("name", "p"), ("version", "1")]], []⟩).2.2
      (by decide) rfl rfl).1.mpr (Or.inr (Or.inr (by decide))),
    ((C8_process_signal "a" "b" true true ⟨[], [], []⟩ ⟨[], [], []⟩).2.2
      (by decide) rfl rfl).2.mpr (by decide)⟩

/-! ### Claim C7 -/

/-- C7 counterexample: a self-relationship `(a, DEPENDS_ON, a)` in a
document whose package collection contains `a`.  Both the source name and
the target name resolve to a package of the document (second conjunct), yet
no relationship is emitted: the `elif` in the resolution loop never lets the
record that resolved the source also resolve the target. -/
theorem C7_counterexample :
    rebuiltRels [] [[("name", "a"), ("version", "1")]] [⟨"a", "DEPENDS_ON", "a"⟩]
      = [] ∧
    resolvesName [] [[("name", "a"), ("version", "1")]] "a" = true := by decide

/-- C7 (amended): a rebuilt relationship with the same relationship type is
emitted iff both endpoint names resolve in the source document's own
collections AND the source and target names differ; self-relationships are
always dropped, silently, like unresolvable ones.  When emitted, the triple
is `(source, type, target)` unchanged and an endpoint is classified `file`
exactly when some file of the document bears its name. -/
theorem C7_endpoint_resolution_amended (fs ps : List Record) (r : Rel) :
    rebuildRel fs ps r =
      (if resolvesName fs ps r.source && resolvesName fs ps r.target
          && (r.source != r.target)
       then some ⟨r.source, r.rtype, r.target,
         some (if fs.any (fun e => getName e == r.source) then "file" else "package"),
         some (if fs.any (fun e => getName e == r.target) then "file" else "package")⟩
       else none) :=
  rebuildRel_spec fs ps r

end SbomMerge
